import Mathlib

/-!
Shallow embedding of `find_orfs_and_types.py` (ORF-RATER): per-family ORF
discovery, naming and type classification.  Python/pandas/numpy code is
rendered as executable Lean functions over lists; genomic position sets are
represented as sorted duplicate-free lists of naturals (the operations used on
Python sets are order-independent).  Machine-integer details: the source
stores `gcoord`/`gstop`/`AAlen` as numpy `u4`; all values arising here are
small non-negative integers, except that a minus-strand feature ending at
genomic position 0 would wrap around in the source.  That corner is excluded
by explicit hypotheses where it could matter; everything else is exact.
-/

namespace OrfRater

/-- Decimal digit to character, as produced by Python's `'%d'` formatting. -/
def digitChar : Nat → Char
  | 0 => '0' | 1 => '1' | 2 => '2' | 3 => '3' | 4 => '4'
  | 5 => '5' | 6 => '6' | 7 => '7' | 8 => '8' | 9 => '9'
  | _ => '*'

/-- Fuel-driven decimal rendering (structural recursion so that concrete
instances reduce in the kernel). -/
def natCharsAux : Nat → Nat → List Char
  | 0, _ => []
  | _ + 1, 0 => []
  | fuel + 1, n + 1 => natCharsAux fuel ((n + 1) / 10) ++ [digitChar ((n + 1) % 10)]

/-- Decimal rendering of a natural number, matching Python `'%d' % n`. -/
def natChars (n : Nat) : List Char := if n = 0 then ['0'] else natCharsAux n n

/-- Decimal rendering as a `String`. -/
def natToStr (n : Nat) : String := ⟨natChars n⟩

/-- Insert into a sorted duplicate-free list, keeping it sorted and
duplicate-free.  Used to model Python `set` values canonically. -/
def insertSorted (x : Nat) : List Nat → List Nat
  | [] => [x]
  | y :: l => if x < y then x :: y :: l else if x = y then y :: l else y :: insertSorted x l

/-- Canonical set-of-list: sorted, duplicate-free.  Models building a Python
`set` from an iterable. -/
def setOfList (l : List Nat) : List Nat := l.foldr insertSorted []

/-- Set union on canonical sets (Python `set.update` / `|`). -/
def unionSet (a b : List Nat) : List Nat := a.foldr insertSorted b

/-- `a.issubset(b)` for position collections (membership based, as in Python,
where `b` may be any iterable). -/
def subsetB (a b : List Nat) : Bool := a.all (fun x => b.contains x)

/-- First-encounter deduplication by key (generic form of
`pandas.DataFrame.drop_duplicates`, keeping the first row of each key). -/
def dedupByKeyAux {α β : Type} [BEq β] (k : α → β) (seen : List β) : List α → List α
  | [] => []
  | a :: l =>
    if seen.contains (k a) then dedupByKeyAux k seen l
    else a :: dedupByKeyAux k (k a :: seen) l

/-- First-encounter deduplication by key. -/
def dedupByKey {α β : Type} [BEq β] (k : α → β) (l : List α) : List α :=
  dedupByKeyAux k [] l

/-- Position of the first occurrence of an element (`list.index(x)` /
`np`-style first-encounter numbering used by the naming loop). -/
def idxOfFp {α : Type} [BEq α] (l : List α) (x : α) : Nat :=
  match l with
  | [] => 0
  | a :: l => if a == x then 0 else idxOfFp l x + 1

/-- Executable sublist test (order-preserving subsequence). -/
def isSublistB : List Nat → List Nat → Bool
  | [], _ => true
  | _ :: _, [] => false
  | a :: l, b :: m => if a = b then isSublistB l m else isSublistB (a :: l) m

/-- Split a list into consecutive triples, dropping any ragged tail; models
`np.reshape((-1, 3))` on arrays whose length is a multiple of three. -/
def chunks3 : List Nat → List (List Nat)
  | a :: b :: c :: rest => [a, b, c] :: chunks3 rest
  | _ => []

/-! ### Sequence scanning (`_find_all_orfs`, `START_RE`, `STOP_RE`) -/

/-- `IUPAC_TABLE_DNA` of the `yeti` dependency (keys and their concrete
nucleotide expansions); `none` for characters outside the table. -/
def iupacExpand : Char → Option (List Char)
  | 'A' => some ['A'] | 'C' => some ['C'] | 'G' => some ['G']
  | 'T' => some ['T'] | 'U' => some ['T']
  | 'R' => some ['A', 'G'] | 'Y' => some ['C', 'T'] | 'S' => some ['G', 'C']
  | 'W' => some ['A', 'T'] | 'K' => some ['G', 'T'] | 'M' => some ['A', 'C']
  | 'B' => some ['C', 'G', 'T'] | 'D' => some ['A', 'G', 'T']
  | 'H' => some ['A', 'C', 'T'] | 'V' => some ['A', 'C', 'G']
  | 'N' => some ['A', 'C', 'T', 'G']
  | _ => none

/-- One pattern character against one sequence character, as compiled by
`seq_to_regex` (IUPAC characters become character classes; characters outside
the table pass through literally). -/
def iupacCharMatch (p x : Char) : Bool :=
  match iupacExpand p with
  | some l => l.contains x
  | none => p == x

/-- One start-codon pattern against the 3-character window (`re.match`
semantics: the pattern must match a prefix of the window). -/
def codonMatch (p s : List Char) : Bool :=
  p.length ≤ s.length && (List.zip p s).all (fun q => iupacCharMatch q.1 q.2)

/-- `START_RE.match(myseq[i:i+3])`: alternation over the configured codons. -/
def startMatch (codons : List String) (s : List Char) : Bool :=
  codons.any (fun c => codonMatch c.data s)

/-- Stop codons recognized by `STOP_RE`. -/
def isStopCodon (a b c : Char) : Bool :=
  (a == 'T' && b == 'A' && c == 'G') || (a == 'T' && b == 'A' && c == 'A') ||
  (a == 'T' && b == 'G' && c == 'A')

/-- `STOP_RE.match` on a suffix: lazily skip whole codons until the first
in-frame stop codon; returns the match end (`m.end()`), or `none` when no
in-frame stop codon fits before the sequence runs out. -/
def stopScan : List Char → Nat → Option Nat
  | a :: b :: c :: rest, k =>
    if isStopCodon a b c then some (k + 3) else stopScan rest (k + 3)
  | _, _ => none

/-- The `tstop` value recorded for a start at offset `i`: one past the end of
the first in-frame stop codon, or the sentinel 0 when there is none. -/
def stopOffset (myseq : List Char) (i : Nat) : Nat :=
  match stopScan (myseq.drop i) 0 with
  | some e => e + i
  | none => 0

/-- `_find_all_orfs`: one `(start, stop, codon)` triple for every offset whose
3-character window matches a configured start codon. -/
def find_all_orfs (codons : List String) (myseq : List Char) :
    List (Nat × Nat × List Char) :=
  (List.range (myseq.length - 2)).filterMap (fun i =>
    let sub := (myseq.drop i).take 3
    if startMatch codons sub then some (i, stopOffset myseq i, sub) else none)

/-! ### Data model -/

/-- A member transcript of a family: its BED identifier and its stranded
genomic position list (`Transcript.get_position_list(stranded=True)`). -/
structure Transcript where
  tid : String
  pos : List Nat
deriving DecidableEq

/-- An annotated transcript from an annotation source: position list plus the
transcript-local CDS boundaries (`cds_start`/`cds_end`), when present. -/
structure AnnotTranscript where
  tid : String
  pos : List Nat
  cds_start : Option Nat
  cds_end : Option Nat
deriving DecidableEq

/-- One transcript family work item: identifier, chromosome, strand, the
family-wide stranded genomic position list (its BED record), and the member
transcripts (resolved from `tfamtids` and `bedlinedict`). -/
structure FamilyInput where
  tfam : String
  chrom : String
  strand : Char
  genpos : List Nat
  transcripts : List Transcript
deriving DecidableEq

/-- One row of the per-family ORF table (the output schema of
`_identify_tfam_orfs`). -/
structure OrfRow where
  tfam : String
  tid : String
  tcoord : Nat
  tstop : Nat
  chrom : String
  gcoord : Nat
  gstop : Nat
  strand : Char
  codon : String
  AAlen : Nat
  orfname : String
  annot_start : Bool
  annot_stop : Bool
  orftype : String
deriving DecidableEq

/-- Default row (used only with `List.getD` at in-range indices). -/
def dummyRow : OrfRow :=
  ⟨"", "", 0, 0, "", 0, 0, '+', "", 0, "", false, false, ""⟩

/-- One eligible annotated CDS (`cds_info` record): genomic start/stop,
amino-acid length, whether its footprint lies inside the family, and its
genomic position set (canonical sorted list). -/
structure CdsInfo where
  gcoord : Nat
  gstop : Nat
  AAlen : Nat
  in_tfam : Bool
  pos : List Nat
deriving DecidableEq

/-- Watson-Crick complement (Biopython `reverse_complement`, restricted to the
plain nucleotide letters; other letters are left unchanged). -/
def complement : Char → Char
  | 'A' => 'T' | 'T' => 'A' | 'G' => 'C' | 'C' => 'G'
  | 'a' => 't' | 't' => 'a' | 'g' => 'c' | 'c' => 'g'
  | x => x

/-- `Transcript.get_sequence(genome)`: the spliced sequence in transcript
orientation.  `pos` is already in stranded order, so the minus strand maps the
complement over the (descending) position list. -/
def getSequence (genome : String → Nat → Char) (chrom : String) (strand : Char)
    (pos : List Nat) : List Char :=
  if strand == '-' then pos.map (fun p => complement (genome chrom p))
  else pos.map (genome chrom)

/-- Amino-acid length of an ORF row (`(stoppos - startpos)/3 - 1` when a stop
codon is present, 0 otherwise). -/
def AAlenOf (tcoord tstop : Nat) : Nat :=
  if tstop > 0 then (tstop - tcoord) / 3 - 1 else 0

/-- Genomic stop of an ORF (`get_genomic_coordinate(stoppos - 1) +
(strand == '+')*2 - 1`, preserving half-openness on both strands; 0 when no
stop codon is present). -/
def gstopOf (strand : Char) (pos : List Nat) (tstop : Nat) : Nat :=
  if tstop > 0 then pos.getD (tstop - 1) 0 + (if strand == '+' then 2 else 0) - 1
  else 0

/-- The rows contributed by one member transcript (scanner output mapped to
genomic coordinates; the name and classification columns are filled in with
their initial defaults `''`/`False`/`'new'`). -/
def transcriptRows (genome : String → Nat → Char) (codons : List String)
    (F : FamilyInput) (T : Transcript) : List OrfRow :=
  (find_all_orfs codons ((getSequence genome F.chrom F.strand T.pos).map Char.toUpper)).map
    (fun e =>
      { tfam := F.tfam, tid := T.tid, tcoord := e.1, tstop := e.2.1,
        chrom := F.chrom, gcoord := T.pos.getD e.1 0,
        gstop := gstopOf F.strand T.pos e.2.1, strand := F.strand,
        codon := ⟨e.2.2⟩, AAlen := AAlenOf e.1 e.2.1, orfname := "",
        annot_start := false, annot_stop := false, orftype := "new" })

/-! ### Naming (`_name_orf` and the grouping loop) -/

/-- `_name_orf`: the base identifier `'%s_%d_%daa'`. -/
def name_orf (tfam : String) (gcoord AAlen : Nat) : String :=
  tfam ++ "_" ++ natToStr gcoord ++ "_" ++ natToStr AAlen ++ "aa"

/-- Row of the family coverage matrix for one transcript
(`np.in1d(tfam_genpos, transcript positions)`). -/
def tmaskRow (genpos tpos : List Nat) : List Bool :=
  genpos.map (fun g => tpos.contains g)

/-- `np.flatnonzero` of a coverage-matrix row: the ascending indices of the
family positions covered by the transcript. -/
def fnzRow (genpos tpos : List Nat) : List Nat :=
  (List.range genpos.length).filter (fun j => tpos.contains (genpos.getD j 0))

/-- Position list of a member transcript, looked up by identifier
(`tidx_lookup` plus `tmask`). -/
def tposOf (F : FamilyInput) (tid : String) : List Nat :=
  match F.transcripts.find? (fun T => T.tid == tid) with
  | some T => T.pos
  | none => []

/-- The footprint used for naming:
`np.flatnonzero(tmask[tidx])[tcoord:tstop]` (note the slice is empty when
`tstop` is the no-stop sentinel 0). -/
def fpOf (F : FamilyInput) (r : OrfRow) : List Nat :=
  ((fnzRow F.genpos (tposOf F r.tid)).drop r.tcoord).take (r.tstop - r.tcoord)

/-- The name assigned to one row by the grouping loop: rows are grouped by
`(gcoord, AAlen)`; a singleton group or a group whose footprints all agree
gets the base name, otherwise suffixes `_0`, `_1`, ... are appended in order
of first encounter of each distinct footprint (the `while unnamed.any()`
loop).  The source compares footprints via `np.vstack`, which additionally
requires all slices in a group to have equal length; groups violating that
would crash the source and do not arise for validated start codons. -/
def nameOf (F : FamilyInput) (t : List OrfRow) (r : OrfRow) : String :=
  let grp := t.filter (fun s => s.gcoord == r.gcoord && s.AAlen == r.AAlen)
  let base := name_orf F.tfam r.gcoord r.AAlen
  if grp.length == 1 then base
  else
    let fps := grp.map (fpOf F)
    if fps.all (fun fp => fp == fps.headD []) then base
    else base ++ "_" ++ natToStr (idxOfFp (dedupByKey id fps) (fpOf F r))

/-- The naming pass over the concatenated per-family table. -/
def nameRows (F : FamilyInput) (t : List OrfRow) : List OrfRow :=
  t.map (fun r => { r with orfname := nameOf F t r })

/-! ### Annotation lookups and `cds_info` -/

/-- The annotated transcripts associated with a family: concatenation, over
the annotation sources (`zip(annot_tfam_lookups, annot_tid_lookups)`), of the
source's transcript list for this family.  Each source is modelled as an
association list from family identifier to its (already resolved) annotated
transcripts. -/
def annotsFor (sources : List (List (String × List AnnotTranscript))) (tfam : String) :
    List AnnotTranscript :=
  (sources.filterMap (fun src => (src.find? (fun kv => kv.1 == tfam)).map Prod.snd)).flatten

/-- `tfam in tfams_with_annots`: the family identifier occurs as a key of some
annotation source. -/
def tfamHasAnnots (sources : List (List (String × List AnnotTranscript)))
    (tfam : String) : Bool :=
  sources.any (fun src => src.any (fun kv => kv.1 == tfam))

/-- The eligibility filter of the `cds_info` construction: both CDS boundaries
present and the CDS position-set size a multiple of three; produces the
`(gcoord, gstop, AAlen, in_tfam, pos)` record. -/
def eligibleCds (strand : Char) (genpos : List Nat) (T : AnnotTranscript) :
    Option CdsInfo :=
  match T.cds_start, T.cds_end with
  | some s, some e =>
    let posSet := setOfList ((T.pos.drop s).take (e - s))
    if posSet.length % 3 == 0 then
      some { gcoord := T.pos.getD s 0,
             gstop := T.pos.getD (e - 1) 0 + (if strand == '+' then 2 else 0) - 1,
             AAlen := (posSet.length - 3) / 3,
             in_tfam := subsetB posSet genpos,
             pos := posSet }
    else none
  | _, _ => none

/-- `cds_info` before deduplication, in source order. -/
def cdsInfoFor (sources : List (List (String × List AnnotTranscript)))
    (F : FamilyInput) : List CdsInfo :=
  (annotsFor sources F.tfam).filterMap (eligibleCds F.strand F.genpos)

/-- `all_annot_pos`: the union of every eligible CDS position set (built while
`cds_info` is collected, before deduplication). -/
def allAnnotPos (cds : List CdsInfo) : List Nat :=
  cds.foldr (fun c acc => unionSet c.pos acc) []

/-- The manual duplicate-dropping of `cds_info` (groupby plus the
first-occurrence filter over equal position sets); since position sets are
canonical here, this is first-encounter deduplication of whole records.  The
groupby also reorders rows, but every later use of `cds_info` is
order-independent. -/
def dedupCds (cds : List CdsInfo) : List CdsInfo := dedupByKey id cds

/-! ### The classification cascade (`orftype` state machine) -/

/-- `_get_orf_pos`: the genomic coordinates spanned by a named ORF, read off
the first table row carrying that name (the source caches this per name; all
call sites pass rows of the same name, whose spans agree on well-formed
input, so the first row is a faithful representative). -/
def orfPosOf (F : FamilyInput) (t : List OrfRow) (orfname : String) : List Nat :=
  match t.find? (fun r => r.orfname == orfname) with
  | some r => ((tposOf F r.tid).drop r.tcoord).take (r.tstop - r.tcoord)
  | none => []

/-- Relabel a single row by a per-name decision: the row's `orftype` becomes
the decided label when there is one, and is kept otherwise. -/
def relabelApply (v : String → Option String) (r : OrfRow) : OrfRow :=
  { r with orftype := (v r.orfname).getD r.orftype }

/-- Relabel rows by a per-name decision: rows whose name is sent to
`some label` get that `orftype`, all others are untouched.  Every
`tfam_orfs.loc[tfam_orfs['orfname'].isin(...)]` assignment has this shape. -/
def relabelF (v : String → Option String) (t : List OrfRow) : List OrfRow :=
  t.map (relabelApply v)

/-- Relabel rows by a per-row condition (the `annot_start`/`annot_stop`
one-liner rules Siso, Ciso and Niso). -/
def condRelabel (P : OrfRow → Bool) (label : String) (t : List OrfRow) : List OrfRow :=
  t.map (fun r => if P r then { r with orftype := label } else r)

/-- `tfam_orfs.loc[tfam_orfs['tstop'] == 0, 'orftype'] = 'nonstop'`. -/
def nonstopStep (t : List OrfRow) : List OrfRow :=
  t.map (fun r => if r.tstop == 0 then { r with orftype := "nonstop" } else r)

/-- Lines 209-210: `annot_start`/`annot_stop` flags from exact genomic
start/stop matches against `cds_info`. -/
def setAnnotFlags (cds : List CdsInfo) (t : List OrfRow) : List OrfRow :=
  t.map (fun r =>
    { r with annot_start := cds.any (fun c => c.gcoord == r.gcoord),
             annot_stop := cds.any (fun c => c.gstop == r.gstop) })

/-- Exact-key match of a CDS against an ORF row on `(gcoord, gstop, AAlen)`,
restricted to in-family CDSs (the merge keys of line 226). -/
def annotKeyMatch (c : CdsInfo) (r : OrfRow) : Bool :=
  c.in_tfam && c.gcoord == r.gcoord && c.gstop == r.gstop && c.AAlen == r.AAlen

/-- Per-name decision of the ANNOTATED/XISO rule: the first row of the name
matching an in-family CDS exactly decides `annotated` (when some matching CDS
footprint is contained in the ORF span) or `Xiso`; names without such a row
are untouched. -/
def annotatedXisoName (F : FamilyInput) (t0 : List OrfRow) (cds : List CdsInfo)
    (t : List OrfRow) (nm : String) : Option String :=
  match ((dedupByKey (fun r => r.orfname) t).filter
      (fun r => cds.any (fun c => annotKeyMatch c r))).find?
      (fun r => r.orfname == nm) with
  | some m =>
    if cds.any (fun c => annotKeyMatch c m && subsetB c.pos (orfPosOf F t0 nm))
    then some "annotated" else some "Xiso"
  | none => none

/-- ANNOTATED and XISO (lines 226-232): for each first-per-name row exactly
matching an in-family CDS on `(gcoord, gstop, AAlen)`, the whole name becomes
`annotated` when some matching CDS footprint is contained in the ORF span,
otherwise `Xiso`. -/
def annotatedXisoStep (F : FamilyInput) (t0 : List OrfRow) (cds : List CdsInfo)
    (t : List OrfRow) : List OrfRow :=
  relabelF (annotatedXisoName F t0 cds t) t

/-- XISO via merge (lines 233-234): any still-`new` name whose `(gcoord,
gstop)` match some CDS becomes `Xiso`. -/
def xiso2Step (cds : List CdsInfo) (t : List OrfRow) : List OrfRow :=
  let names := (t.filter (fun r =>
    r.orftype == "new" && cds.any (fun c => c.gcoord == r.gcoord && c.gstop == r.gstop))).map
    (fun r => r.orfname)
  relabelF (fun nm => if names.contains nm then some "Xiso" else none) t

/-- The merges of still-`new` rows with `annotated` rows on the same
transcript (`sametrans` and `found_matched_stop` patterns): relabel every name
of a `new` row for which some `annotated` row on the same transcript satisfies
`cond`. -/
def sameTransStep (cond : OrfRow → OrfRow → Bool) (label : String)
    (t : List OrfRow) : List OrfRow :=
  let names := (t.filter (fun r =>
    r.orftype == "new" && t.any (fun a =>
      a.orftype == "annotated" && a.tid == r.tid && cond r a))).map (fun r => r.orfname)
  relabelF (fun nm => if names.contains nm then some label else none) t

/-- TRUNCATION (lines 246-249): same transcript, same transcript-local stop,
initiating strictly downstream of an `annotated` ORF. -/
def truncationStep (t : List OrfRow) : List OrfRow :=
  sameTransStep (fun r a => a.tstop == r.tstop && decide (r.tcoord > a.tcoord))
    "truncation" t

/-- Unfound TRUNCATION (lines 252-267, only with extra CDS sources): a
still-`new` name whose `gstop` matches a shorter-than-it CDS, whose span is
contained in that CDS footprint, and which covers every CDS position past the
ORF start (strand-oriented comparison). -/
def truncUnfoundStep (F : FamilyInput) (t0 : List OrfRow) (cds : List CdsInfo)
    (strand : Char) (t : List OrfRow) : List OrfRow :=
  let reps := dedupByKey (fun r => r.orfname) (t.filter (fun r => r.orftype == "new"))
  let names := (reps.filter (fun r =>
    cds.any (fun c =>
      c.gstop == r.gstop && decide (r.AAlen < c.AAlen) &&
      (let orf_pos := orfPosOf F t0 r.orfname
       subsetB orf_pos c.pos &&
       (if strand == '-' then subsetB (c.pos.filter (fun p => p ≤ r.gcoord)) orf_pos
        else subsetB (c.pos.filter (fun p => p ≥ r.gcoord)) orf_pos))))).map
    (fun r => r.orfname)
  relabelF (fun nm => if names.contains nm then some "truncation" else none) t

/-- EXTENSION (lines 270-273): every still-`new` name sharing transcript and
transcript-local stop with an `annotated` ORF (the preceding rules guarantee
these initiate strictly upstream, which line 272 asserts). -/
def extensionStep (t : List OrfRow) : List OrfRow :=
  sameTransStep (fun r a => a.tstop == r.tstop) "extension" t

/-- NCISO (lines 283-296): a still-`new` name sharing a full in-frame codon
position-triple with some CDS footprint (triples taken in stranded order). -/
def ncisoStep (F : FamilyInput) (t0 : List OrfRow) (cds : List CdsInfo)
    (strand : Char) (t : List OrfRow) : List OrfRow :=
  let annotCodons := (cds.filterMap (fun c =>
    if c.pos.length % 3 == 0 then
      some (chunks3 (if strand == '-' then c.pos.reverse else c.pos))
    else none)).flatten
  let reps := dedupByKey (fun r => r.orfname) (t.filter (fun r => r.orftype == "new"))
  let names := (reps.filter (fun r =>
    (chunks3 (orfPosOf F t0 r.orfname)).any (fun ch => annotCodons.contains ch))).map
    (fun r => r.orfname)
  relabelF (fun nm => if names.contains nm then some "NCiso" else none) t

/-- Unfound INTERNAL (lines 308-319): containment in a strictly surrounding
CDS footprint, covering all its strictly interior positions. -/
def internalUnfoundStep (F : FamilyInput) (t0 : List OrfRow) (cds : List CdsInfo)
    (strand : Char) (t : List OrfRow) : List OrfRow :=
  let reps := dedupByKey (fun r => r.orfname) (t.filter (fun r => r.orftype == "new"))
  let names := (reps.filter (fun r =>
    let orf_pos := orfPosOf F t0 r.orfname
    if strand == '-' then
      (cds.filter (fun c => decide (c.gcoord > r.gcoord) && decide (c.gstop < r.gstop))).any
        (fun c => subsetB orf_pos c.pos &&
          subsetB (c.pos.filter (fun p => r.gcoord ≥ p && p > r.gstop)) orf_pos)
    else
      (cds.filter (fun c => decide (c.gcoord < r.gcoord) && decide (c.gstop > r.gstop))).any
        (fun c => subsetB orf_pos c.pos &&
          subsetB (c.pos.filter (fun p => r.gcoord ≤ p && p < r.gstop)) orf_pos))).map
    (fun r => r.orfname)
  relabelF (fun nm => if names.contains nm then some "internal" else none) t

/-- Unfound STOP_OVERLAP (lines 329-346). -/
def stopOverUnfoundStep (F : FamilyInput) (t0 : List OrfRow) (cds : List CdsInfo)
    (strand : Char) (t : List OrfRow) : List OrfRow :=
  let reps := dedupByKey (fun r => r.orfname) (t.filter (fun r => r.orftype == "new"))
  let names := (reps.filter (fun r =>
    let orf_pos := orfPosOf F t0 r.orfname
    if strand == '-' then
      (cds.filter (fun c => decide (c.gcoord > r.gcoord) && decide (c.gstop > r.gstop) &&
          decide (c.gstop < r.gcoord))).any
        (fun c => subsetB (orf_pos.filter (fun p => p > c.gstop)) c.pos &&
          subsetB (c.pos.filter (fun p => p ≤ r.gcoord)) orf_pos)
    else
      (cds.filter (fun c => decide (c.gcoord < r.gcoord) && decide (c.gstop < r.gstop) &&
          decide (c.gstop > r.gcoord))).any
        (fun c => subsetB (orf_pos.filter (fun p => p < c.gstop)) c.pos &&
          subsetB (c.pos.filter (fun p => p ≥ r.gcoord)) orf_pos))).map
    (fun r => r.orfname)
  relabelF (fun nm => if names.contains nm then some "stop_overlap" else none) t

/-- Unfound START_OVERLAP (lines 356-373). -/
def startOverUnfoundStep (F : FamilyInput) (t0 : List OrfRow) (cds : List CdsInfo)
    (strand : Char) (t : List OrfRow) : List OrfRow :=
  let reps := dedupByKey (fun r => r.orfname) (t.filter (fun r => r.orftype == "new"))
  let names := (reps.filter (fun r =>
    let orf_pos := orfPosOf F t0 r.orfname
    if strand == '-' then
      (cds.filter (fun c => decide (c.gcoord < r.gcoord) && decide (c.gstop < r.gstop) &&
          decide (c.gcoord > r.gstop))).any
        (fun c => subsetB (orf_pos.filter (fun p => p ≤ c.gcoord)) c.pos &&
          subsetB (c.pos.filter (fun p => p > r.gstop)) orf_pos)
    else
      (cds.filter (fun c => decide (c.gcoord > r.gcoord) && decide (c.gstop > r.gstop) &&
          decide (c.gcoord < r.gstop))).any
        (fun c => subsetB (orf_pos.filter (fun p => p ≥ c.gcoord)) c.pos &&
          subsetB (c.pos.filter (fun p => p < r.gstop)) orf_pos))).map
    (fun r => r.orfname)
  relabelF (fun nm => if names.contains nm then some "start_overlap" else none) t

/-- NEW_ISO and GISO (lines 400-406): every name still `new` becomes
`new_iso` when its span is disjoint from every annotated position, otherwise
`Giso`. -/
def newIsoGisoStep (F : FamilyInput) (t0 : List OrfRow) (aap : List Nat)
    (t : List OrfRow) : List OrfRow :=
  let names := dedupByKey id ((t.filter (fun r => r.orftype == "new")).map
    (fun r => r.orfname))
  relabelF (fun nm =>
    if names.contains nm then
      some (if aap.all (fun p => !(orfPosOf F t0 nm).contains p) then "new_iso"
            else "Giso")
    else none) t

/-- The full ordered rule cascade applied when `cds_info` is non-empty.
`t0` is the named table used for span lookups, `extracds` gates the
"unfound" fallback passes. -/
def classifyCascade (F : FamilyInput) (extracds : Bool) (cds : List CdsInfo)
    (aap : List Nat) (t0 t : List OrfRow) : List OrfRow :=
  let t := setAnnotFlags cds t
  let t := annotatedXisoStep F t0 cds t
  let t := xiso2Step cds t
  let t := condRelabel (fun r => r.annot_start && r.annot_stop && r.orftype == "new")
    "Siso" t
  let t := condRelabel (fun r => r.annot_start && r.orftype == "new") "Ciso" t
  let t := truncationStep t
  let t := if extracds then truncUnfoundStep F t0 cds F.strand t else t
  let t := extensionStep t
  let t := condRelabel (fun r => r.annot_stop && r.orftype == "new") "Niso" t
  let t := ncisoStep F t0 cds F.strand t
  let t := sameTransStep (fun r a => decide (r.tcoord > a.tcoord) &&
    decide (r.tstop < a.tstop)) "internal" t
  let t := if extracds then internalUnfoundStep F t0 cds F.strand t else t
  let t := sameTransStep (fun r a => decide (r.tcoord > a.tcoord) &&
    decide (r.tcoord < a.tstop)) "stop_overlap" t
  let t := if extracds then stopOverUnfoundStep F t0 cds F.strand t else t
  let t := sameTransStep (fun r a => decide (r.tstop > a.tcoord) &&
    decide (r.tstop < a.tstop)) "start_overlap" t
  let t := if extracds then startOverUnfoundStep F t0 cds F.strand t else t
  let t := sameTransStep (fun r a => decide (r.tcoord < a.tcoord) &&
    decide (r.tstop > a.tstop)) "LOOF" t
  let t := sameTransStep (fun r a => decide (r.tstop ≤ a.tcoord)) "upstream" t
  let t := sameTransStep (fun r a => decide (a.tstop ≤ r.tcoord)) "downstream" t
  newIsoGisoStep F t0 aap t

/-- The concatenated per-family table before naming (the `pd.concat` of the
per-transcript frames). -/
def preTable (genome : String → Nat → Char) (codons : List String)
    (F : FamilyInput) : List OrfRow :=
  (F.transcripts.map (transcriptRows genome codons F)).flatten

/-- The concatenated, named, nonstop-marked table of one family (the state of
`tfam_orfs` entering line 185). -/
def namedTable (genome : String → Nat → Char) (codons : List String)
    (F : FamilyInput) : List OrfRow :=
  nonstopStep (nameRows F (preTable genome codons F))

/-- The annotation-dependent part of `_identify_tfam_orfs` (lines 185-410):
run the cascade when the family has annotations and a non-empty `cds_info`,
keep the table as is when `cds_info` is empty, and reset every `orftype` to
`new` when the family has no annotations at all. -/
def identifyCore (sources : List (List (String × List AnnotTranscript)))
    (extracds : Bool) (F : FamilyInput) (t : List OrfRow) : List OrfRow :=
  if tfamHasAnnots sources F.tfam then
    if (cdsInfoFor sources F).isEmpty then t
    else classifyCascade F extracds (dedupCds (cdsInfoFor sources F))
      (allAnnotPos (cdsInfoFor sources F)) t t
  else t.map (fun r => { r with orftype := "new" })

/-- `_identify_tfam_orfs`: scan, name and classify one family; `none` when no
member transcript yields any candidate (the source returns `None`, silently
dropped by `pd.concat`). -/
def identifyTfamOrfs (genome : String → Nat → Char) (codons : List String)
    (sources : List (List (String × List AnnotTranscript))) (extracds : Bool)
    (F : FamilyInput) : Option (List OrfRow) :=
  if (preTable genome codons F).isEmpty then none
  else some (identifyCore sources extracds F (namedTable genome codons F))

/-- The driver loop (lines 418-421): `pd.concat(workers.map(_identify_tfam_orfs,
islice(tfamtids.iteritems(), 100)))` — note the `islice(..., 100)` marked
`# TESTING`, which caps processing at the first 100 families. -/
def processAllFamilies (genome : String → Nat → Char) (codons : List String)
    (sources : List (List (String × List AnnotTranscript))) (extracds : Bool)
    (fams : List FamilyInput) : List OrfRow :=
  ((fams.take 100).filterMap (identifyTfamOrfs genome codons sources extracds)).flatten

/-- The start-codon validation of lines 42-44: invalid when not exactly three
characters or when some uppercased character falls outside `IUPAC_TABLE_DNA`. -/
def codonInvalid (c : String) : Bool :=
  c.length != 3 || c.data.any (fun ch => (iupacExpand ch.toUpper).isNone)

/-- The first invalid codon of the configuration, if any (the loop raises
at the first offender). -/
def validateCodons (cs : List String) : Option String := cs.find? codonInvalid

/-- The program prologue and driver: output-overwrite guard, then start-codon
validation, then family processing — fatal errors abort before any family is
processed. -/
def runPipeline (force orfstoreExists : Bool) (codons : List String)
    (genome : String → Nat → Char)
    (sources : List (List (String × List AnnotTranscript))) (extracds : Bool)
    (fams : List FamilyInput) : Except String (List OrfRow) :=
  if !force && orfstoreExists then Except.error "orfstore exists; use --force to overwrite"
  else
    match validateCodons codons with
    | some c => Except.error (c ++ " is an invalid codon sequence")
    | none => Except.ok (processAllFamilies genome codons sources extracds fams)

/-! ### Well-formedness and invariant vocabulary -/

/-- The suffix part of an ORF name after the family/start/length stem: nothing
for the base form, an underscore and a collision number for the split form. -/
def restEnc : Option Nat → List Char
  | none => []
  | some k => '_' :: natChars k

/-- Equality of the row fields never modified after the naming pass. -/
def SameCore (r s : OrfRow) : Prop :=
  r.tfam = s.tfam ∧ r.tid = s.tid ∧ r.tcoord = s.tcoord ∧ r.tstop = s.tstop ∧
  r.gcoord = s.gcoord ∧ r.gstop = s.gstop ∧ r.AAlen = s.AAlen ∧
  r.orfname = s.orfname

/-- Classification state is uniform across rows sharing an `orfname`. -/
def NameUniformity (t : List OrfRow) : Prop :=
  ∀ r ∈ t, ∀ s ∈ t, r.orfname = s.orfname →
    r.orftype = s.orftype ∧ r.annot_start = s.annot_start ∧
    r.annot_stop = s.annot_stop

/-- Genomic start/stop and stoplessness are uniform across rows sharing an
`orfname`. -/
def StaticUniformity (t : List OrfRow) : Prop :=
  ∀ r ∈ t, ∀ s ∈ t, r.orfname = s.orfname →
    r.gcoord = s.gcoord ∧ r.gstop = s.gstop ∧ (r.tstop = 0 ↔ s.tstop = 0)

/-- The two per-name uniformity invariants maintained across the cascade. -/
def UniInv (t : List OrfRow) : Prop := NameUniformity t ∧ StaticUniformity t

/-- The stopless rows are exactly the `nonstop`-labeled ones, and stopless
rows carry the sentinel `gstop = 0`. -/
def NonstopInv (t : List OrfRow) : Prop :=
  (∀ r ∈ t, r.tstop = 0 → r.orftype = "nonstop") ∧
  (∀ r ∈ t, r.orftype = "nonstop" → r.tstop = 0) ∧
  (∀ r ∈ t, r.tstop = 0 → r.gstop = 0)

/-- Everything the cascade steps preserve per name. -/
def CascadeInv (t : List OrfRow) : Prop := UniInv t ∧ NonstopInv t

/-- Well-formed family input: duplicate-free family position list, each member
transcript's stranded position list an ordered sublist of it, and distinct
member transcript identifiers.  (The source assumes these of its BED inputs;
`np.in1d` is even called with `assume_unique=True`.) -/
def WF (F : FamilyInput) : Prop :=
  F.genpos.Nodup ∧ (∀ T ∈ F.transcripts, isSublistB T.pos F.genpos = true) ∧
  (F.transcripts.map (fun T => T.tid)).Nodup

/-! ### Specification-side definition for footprint comparison -/

/-- The ordered genomic footprint in the sense of the specification glossary:
the genomic positions actually spanned by an ORF, accounting for the
transcript's exon structure — start through stop when a stop codon exists,
start through the transcript end otherwise (an ORF with no stop codon runs to
the sequence end).  Written from the specification's words, to be compared
with the footprint the naming code computes. -/
def specFootprint (F : FamilyInput) (r : OrfRow) : List Nat :=
  if r.tstop = 0 then (tposOf F r.tid).drop r.tcoord
  else ((tposOf F r.tid).drop r.tcoord).take (r.tstop - r.tcoord)

/-! ### Concrete instances used by counterexamples and witnesses -/

/-- Genome carrying the sequence `ATGAAATAA` on every chromosome. -/
def genome7 : String → Nat → Char := fun _ p => "ATGAAATAA".data.getD p 'N'

/-- One-transcript family over `genome7`. -/
def fam7 : FamilyInput :=
  ⟨"fam7", "chr", '+', [0, 1, 2, 3, 4, 5, 6, 7, 8],
   [⟨"t7", [0, 1, 2, 3, 4, 5, 6, 7, 8]⟩]⟩

/-- An annotated transcript whose CDS is exactly the `ATGAAATAA` span. -/
def annT4 : AnnotTranscript := ⟨"t7", [0, 1, 2, 3, 4, 5, 6, 7, 8], some 0, some 9⟩

/-- One annotation source associating `annT4` with family `fam7`. -/
def srcs4 : List (List (String × List AnnotTranscript)) := [[("fam7", [annT4])]]

/-- Genome carrying `ATGAAA`: a start codon with no downstream stop codon. -/
def genomeC1 : String → Nat → Char := fun _ p => "ATGAAA".data.getD p 'N'

/-- One-transcript family over `genomeC1`, producing a single stopless ORF. -/
def famC1 : FamilyInput :=
  ⟨"famC1", "chr", '+', [0, 1, 2, 3, 4, 5], [⟨"t1", [0, 1, 2, 3, 4, 5]⟩]⟩

/-- An annotation source listing family `famC1` but with no usable CDS
(both boundaries absent). -/
def srcs1 : List (List (String × List AnnotTranscript)) :=
  [[("famC1", [⟨"t1", [0, 1, 2, 3, 4, 5], none, none⟩])]]

/-- Genome for the naming counterexample: `ATG` at 0-2 and at 8-10, no stop
codon anywhere. -/
def genomeC3 : String → Nat → Char := fun _ p => "ATGAAACCATG".data.getD p 'A'

/-- Two transcripts sharing the start at genomic position 0 but with different
downstream exon structure; both carry a stopless ORF there. -/
def famC3 : FamilyInput :=
  ⟨"famC3", "chr", '+', [0, 1, 2, 3, 4, 5, 8, 9, 10],
   [⟨"t1", [0, 1, 2, 3, 4, 5]⟩, ⟨"t2", [0, 1, 2, 8, 9, 10]⟩]⟩

/-- A family with no member transcripts (contributes no rows). -/
def famEmpty : FamilyInput := ⟨"famEmpty", "chr", '+', [], []⟩

/-- 101 families: 100 empty ones followed by a productive one. -/
def famsOver100 : List FamilyInput := List.replicate 100 famEmpty ++ [famC1]

/-- A `new`-typed row on transcript `t` stopping at local offset 20,
starting at 5. -/
def rowO : OrfRow :=
  { tfam := "f", tid := "t", tcoord := 5, tstop := 20, chrom := "c", gcoord := 5,
    gstop := 20, strand := '+', codon := "ATG", AAlen := 4, orfname := "o",
    annot_start := false, annot_stop := false, orftype := "new" }

/-- An `annotated`-typed row on the same transcript and local stop,
starting at 2. -/
def rowA : OrfRow :=
  { tfam := "f", tid := "t", tcoord := 2, tstop := 20, chrom := "c", gcoord := 2,
    gstop := 20, strand := '+', codon := "ATG", AAlen := 5, orfname := "a",
    annot_start := true, annot_stop := true, orftype := "annotated" }

/-- Truncation scenario: the `new` ORF starts strictly downstream. -/
def t5a : List OrfRow := [rowO, rowA]

/-- Extension scenario: the `new` ORF starts strictly upstream (offset 1). -/
def t5b : List OrfRow := [{ rowO with tcoord := 1, gcoord := 1 }, rowA]

/-! ## Helper lemmas -/

theorem getD_map_lt {α β : Type} (f : α → β) (t : List α) {i : Nat}
    (h : i < t.length) (da : α) (db : β) :
    (t.map f).getD i db = f (t.getD i da) := by
  rw [List.getD_eq_getElem _ _ (by simpa using h), List.getD_eq_getElem _ _ h,
    List.getElem_map]

theorem mem_of_mem_dedupByKeyAux {α β : Type} [BEq β] (k : α → β)
    (l : List α) (a : α) :
    ∀ seen : List β, a ∈ dedupByKeyAux k seen l → a ∈ l := by
  induction l with
  | nil => intro seen h; simp [dedupByKeyAux] at h
  | cons b l ih =>
    intro seen h
    rw [dedupByKeyAux] at h
    split at h
    · exact List.mem_cons_of_mem _ (ih _ h)
    · rcases List.mem_cons.mp h with h | h
      · exact h ▸ List.mem_cons_self _ _
      · exact List.mem_cons_of_mem _ (ih _ h)

theorem mem_of_mem_dedupByKey {α β : Type} [BEq β] (k : α → β) (l : List α)
    (a : α) (h : a ∈ dedupByKey k l) : a ∈ l :=
  mem_of_mem_dedupByKeyAux k l a [] h

theorem exists_dedupByKeyAux_rep {α β : Type} [BEq β] [LawfulBEq β] (k : α → β)
    (l : List α) (x : α) (hx : x ∈ l) :
    ∀ seen : List β, k x ∉ seen → ∃ a ∈ dedupByKeyAux k seen l, k a = k x := by
  induction l with
  | nil => simp at hx
  | cons b l ih =>
    intro seen hs
    rw [dedupByKeyAux]
    rcases List.mem_cons.mp hx with hxb | hx2
    · split
      next hc =>
        exact absurd (by simpa [hxb] using hc) hs
      next =>
        exact ⟨b, List.mem_cons_self _ _, (congrArg k hxb).symm⟩
    · split
      next => exact ih hx2 seen hs
      next =>
        by_cases hk : k b = k x
        · exact ⟨b, List.mem_cons_self _ _, hk⟩
        · obtain ⟨a, ha, hka⟩ := ih hx2 (k b :: seen) (by
            simp only [List.mem_cons, not_or]
            exact ⟨fun h => hk h.symm, hs⟩)
          exact ⟨a, List.mem_cons_of_mem _ ha, hka⟩

theorem exists_dedupByKey_rep {α β : Type} [BEq β] [LawfulBEq β] (k : α → β)
    (l : List α) (x : α) (hx : x ∈ l) :
    ∃ a ∈ dedupByKey k l, k a = k x :=
  exists_dedupByKeyAux_rep k l x hx [] (by simp)

theorem relabelApply_fields (v : String → Option String) (r : OrfRow) :
    (relabelApply v r).tid = r.tid ∧ (relabelApply v r).tcoord = r.tcoord ∧
    (relabelApply v r).tstop = r.tstop ∧ (relabelApply v r).orfname = r.orfname ∧
    (relabelApply v r).gcoord = r.gcoord ∧ (relabelApply v r).gstop = r.gstop ∧
    (relabelApply v r).AAlen = r.AAlen ∧
    (relabelApply v r).annot_start = r.annot_start ∧
    (relabelApply v r).annot_stop = r.annot_stop ∧
    (relabelApply v r).tfam = r.tfam ∧ (relabelApply v r).strand = r.strand ∧
    (relabelApply v r).chrom = r.chrom ∧ (relabelApply v r).codon = r.codon := by
  cases h : v r.orfname <;> simp [relabelApply, h]

theorem relabelApply_orftype (v : String → Option String) (r : OrfRow) :
    (relabelApply v r).orftype = (v r.orfname).getD r.orftype := rfl

theorem identify_some_elim (genome : String → Nat → Char) (codons : List String)
    (sources : List (List (String × List AnnotTranscript))) (extracds : Bool)
    (F : FamilyInput) (tbl : List OrfRow)
    (hid : identifyTfamOrfs genome codons sources extracds F = some tbl) :
    tbl = identifyCore sources extracds F (namedTable genome codons F) := by
  unfold identifyTfamOrfs at hid
  split at hid
  · cases hid
  · injection hid with hid
    exact hid.symm

theorem filter_fst_filterMap_range {β : Type} (n : Nat) (p : Nat → Bool)
    (h : Nat → β) (i : Nat) :
    ((List.range n).filterMap (fun j => if p j then some (j, h j) else none)).filter
        (fun e => e.1 == i) =
      if i < n ∧ p i = true then [(i, h i)] else [] := by
  induction n with
  | zero => simp
  | succ n ih =>
    rw [List.range_succ, List.filterMap_append, List.filter_append, ih]
    have htail :
        (List.filterMap (fun j => if p j then some (j, h j) else none) [n]).filter
            (fun e => e.1 == i) =
          if i = n ∧ p n = true then [(i, h i)] else [] := by
      by_cases hin : i = n
      · subst hin
        by_cases hp : p i = true <;> simp [hp]
      · have hne : (n == i) = false := by
          simp only [beq_eq_false_iff_ne, ne_eq]
          exact fun hcontra => hin hcontra.symm
        by_cases hp : p n = true <;> simp [hp, hne, hin]
    rw [htail]
    by_cases h1 : i < n
    · have h3 : ¬ i = n := by omega
      have h4 : i < n + 1 := by omega
      by_cases h2 : p i = true <;> simp [h1, h2, h3, h4]
    · by_cases h3 : i = n
      · subst h3
        have h4 : i < i + 1 := by omega
        by_cases h2 : p i = true <;> simp [h1, h2, h4]
      · have h4 : ¬ i < n + 1 := by omega
        by_cases h2 : p i = true <;> simp [h1, h2, h3, h4]

/-! ## Claim theorems (first batch) -/

/-- C6: the scanner returns exactly one `(start, stop, codon)` entry for each
offset whose 3-letter window matches the configured start pattern (so
overlapping and nested starts each yield their own entry), with the recorded
stop and codon determined by that offset; no matching offset is omitted and no
non-matching offset produces an entry.  The concrete conjunct shows the
overlapping-start example `ATGATGTAA` yielding entries at offsets 0 and 3. -/
theorem C6_thm (codons : List String) (myseq : List Char) (i : Nat) :
    (((find_all_orfs codons myseq).filter (fun e => e.1 == i)).length =
      if i + 3 ≤ myseq.length ∧ startMatch codons ((myseq.drop i).take 3) = true
      then 1 else 0) ∧
    (∀ e ∈ find_all_orfs codons myseq,
      startMatch codons ((myseq.drop e.1).take 3) = true ∧
      e.2.1 = stopOffset myseq e.1 ∧ e.2.2 = (myseq.drop e.1).take 3) ∧
    (find_all_orfs ["ATG"] "ATGATGTAA".data).map (fun e => e.1) = [0, 3] := by
  refine ⟨?_, ?_, by decide⟩
  · have hrw : find_all_orfs codons myseq =
        (List.range (myseq.length - 2)).filterMap (fun j =>
          if startMatch codons ((myseq.drop j).take 3) then
            some (j, stopOffset myseq j, (myseq.drop j).take 3)
          else none) := rfl
    rw [hrw, filter_fst_filterMap_range (myseq.length - 2)
      (fun j => startMatch codons ((myseq.drop j).take 3))
      (fun j => (stopOffset myseq j, (myseq.drop j).take 3)) i]
    have hiff : i < myseq.length - 2 ↔ i + 3 ≤ myseq.length := by omega
    by_cases h2 : startMatch codons ((myseq.drop i).take 3) = true
    · by_cases h1 : i + 3 ≤ myseq.length
      · rw [if_pos ⟨hiff.mpr h1, h2⟩, if_pos ⟨h1, h2⟩]
        rfl
      · rw [if_neg (fun hc => h1 (hiff.mp hc.1)), if_neg (fun hc => h1 hc.1)]
        rfl
    · rw [if_neg (fun hc => h2 hc.2), if_neg (fun hc => h2 hc.2)]
      rfl
  · intro e he
    have hrw : find_all_orfs codons myseq =
        (List.range (myseq.length - 2)).filterMap (fun j =>
          if startMatch codons ((myseq.drop j).take 3) then
            some (j, stopOffset myseq j, (myseq.drop j).take 3)
          else none) := rfl
    rw [hrw] at he
    obtain ⟨j, _, hj⟩ := List.mem_filterMap.mp he
    split at hj
    next hp => cases hj; exact ⟨hp, rfl, rfl⟩
    next => cases hj

/-- C6 witness: instantiation on the sequence `ATGATGTAA` at offset 3 (a
nested start): exactly one entry there, and every returned entry has the
recorded shape. -/
theorem C6_witness :
    ((find_all_orfs ["ATG"] "ATGATGTAA".data).filter (fun e => e.1 == 3)).length = 1 ∧
    ∀ e ∈ find_all_orfs ["ATG"] "ATGATGTAA".data,
      startMatch ["ATG"] (("ATGATGTAA".data.drop e.1).take 3) = true ∧
      e.2.1 = stopOffset "ATGATGTAA".data e.1 ∧
      e.2.2 = ("ATGATGTAA".data.drop e.1).take 3 := by
  have h := C6_thm ["ATG"] "ATGATGTAA".data 3
  exact ⟨by rw [h.1]; decide, h.2.1⟩

/-- C7: on `ATGAAATAA` with the default start pattern `ATG` the scanner
returns exactly the one candidate `(start = 0, stop = 9, codon = "ATG")`, and
the amino-acid length recorded for it is `(9 - 0)/3 - 1 = 2` (shown both via
the length formula and on the full per-family row). -/
theorem C7_thm :
    find_all_orfs ["ATG"] "ATGAAATAA".data = [(0, 9, "ATG".data)] ∧
    AAlenOf 0 9 = (9 - 0) / 3 - 1 ∧
    (identifyTfamOrfs genome7 ["ATG"] [] false fam7).map
        (fun t => t.map (fun r => (r.tcoord, r.tstop, r.codon, r.AAlen))) =
      some [(0, 9, "ATG", 2)] := by decide

/-- C9: an invalid start codon (wrong length, or a character outside the
recognized IUPAC alphabet) makes the program abort with an error before any
family processing (the pipeline short-circuits to `Except.error`); when every
codon is valid the validation passes. -/
theorem C9_thm (force orfstoreExists : Bool) (codons : List String)
    (genome : String → Nat → Char)
    (sources : List (List (String × List AnnotTranscript))) (extracds : Bool)
    (fams : List FamilyInput) :
    (codons.any codonInvalid = true →
      ∃ msg, runPipeline force orfstoreExists codons genome sources extracds fams =
        Except.error msg) ∧
    (validateCodons codons = none ↔ ∀ c ∈ codons, codonInvalid c = false) := by
  constructor
  · intro hbad
    unfold runPipeline
    split
    · exact ⟨_, rfl⟩
    · have hex : ∃ c ∈ codons, codonInvalid c = true := List.any_eq_true.mp hbad
      have hsome : (validateCodons codons).isSome := by
        rw [validateCodons]; exact List.find?_isSome.mpr hex
      obtain ⟨c, hc⟩ := Option.isSome_iff_exists.mp hsome
      rw [hc]
      exact ⟨_, rfl⟩
  · rw [validateCodons, List.find?_eq_none]
    simp

/-- C9 witness: the configuration `["ATGG"]` (four characters) is rejected,
and the default configuration `["ATG"]` passes validation. -/
theorem C9_witness :
    (∃ msg, runPipeline true false ["ATGG"] genome7 [] false [fam7] =
      Except.error msg) ∧
    (validateCodons ["ATG"] = none ↔ ∀ c ∈ ["ATG"], codonInvalid c = false) := by
  exact ⟨(C9_thm true false ["ATGG"] genome7 [] false [fam7]).1 (by decide),
    (C9_thm true false ["ATG"] genome7 [] false [fam7]).2⟩

/-- C2 (code bug): the driver caps processing at the first 100 families
(`islice(..., 100)`, marked TESTING in the source), so with more than 100
families the later ones are silently dropped: processing any family list
equals processing only its first 100 entries, and on a concrete list of 101
families the productive 101st family contributes nothing even though
processing it alone yields a row. -/
theorem C2_thm :
    (∀ (genome : String → Nat → Char) (codons : List String)
      (sources : List (List (String × List AnnotTranscript))) (extracds : Bool)
      (fams : List FamilyInput),
      processAllFamilies genome codons sources extracds fams =
        processAllFamilies genome codons sources extracds (fams.take 100)) ∧
    processAllFamilies genomeC1 ["ATG"] [] false famsOver100 = [] ∧
    (identifyTfamOrfs genomeC1 ["ATG"] [] false famC1).map List.length = some 1 := by
  refine ⟨?_, by decide, by decide⟩
  intro genome codons sources extracds fams
  unfold processAllFamilies
  rw [List.take_take]
  simp

/-- C8: a family whose identifier appears in no annotation lookup gets every
row of its returned table typed `new`. -/
theorem C8_thm (genome : String → Nat → Char) (codons : List String)
    (sources : List (List (String × List AnnotTranscript))) (extracds : Bool)
    (F : FamilyInput) (tbl : List OrfRow)
    (hno : tfamHasAnnots sources F.tfam = false)
    (hid : identifyTfamOrfs genome codons sources extracds F = some tbl) :
    ∀ r ∈ tbl, r.orftype = "new" := by
  obtain rfl := identify_some_elim genome codons sources extracds F tbl hid
  unfold identifyCore
  rw [hno, if_neg (by simp)]
  intro r hr
  obtain ⟨r0, _, rfl⟩ := List.mem_map.mp hr
  rfl

/-- C8 witness: the row of the concrete family `famC1` with no annotation
sources is typed `new`. -/
theorem C8_witness :
    (((identifyTfamOrfs genomeC1 ["ATG"] [] false famC1).getD []).getD 0
      dummyRow).orftype = "new" :=
  C8_thm genomeC1 ["ATG"] [] false famC1 _ (by decide) rfl _ (by decide)

/-- C1 counterexample: in the zero-annotation family `famC1` the single ORF
has no stop codon (`tstop = 0`) yet its `orftype` is not `nonstop` — line 410
of the source overwrites the whole column with `new` for families without
annotations, so the claim as stated (nonstop regardless of annotation state)
fails. -/
theorem C1_counterexample :
    ∃ r ∈ (identifyTfamOrfs genomeC1 ["ATG"] [] false famC1).getD [],
      r.tstop = 0 ∧ r.orftype ≠ "nonstop" := by decide

/-- C3 counterexample: two candidate ORFs of family `famC3` (one per
transcript, both stopless, sharing genomic start 0) receive the same
`orfname` although the genomic positions they actually span differ — the
naming code compares the slice `[tcoord:tstop]`, which is empty whenever
`tstop` is the no-stop sentinel 0, so differing downstream exon structures
are not distinguished for stopless ORFs. -/
theorem C3_counterexample :
    ∃ r1 ∈ (identifyTfamOrfs genomeC3 ["ATG"] [] false famC3).getD [],
      ∃ r2 ∈ (identifyTfamOrfs genomeC3 ["ATG"] [] false famC3).getD [],
        r1.orfname = r2.orfname ∧
        specFootprint famC3 r1 ≠ specFootprint famC3 r2 := by decide

/-- Every row leaving the final NEW_ISO/GISO pass is labeled, so none stays
`new`: rows still `new` at entry have their name in the pass's name list and
are relabeled `new_iso` or `Giso`; all other rows already carry another
label. -/
theorem newIsoGiso_no_new (F : FamilyInput) (t0 : List OrfRow) (aap : List Nat)
    (t : List OrfRow) : ∀ r ∈ newIsoGisoStep F t0 aap t, r.orftype ≠ "new" := by
  intro r hr
  have hr2 : r ∈ relabelF (fun nm =>
      if (dedupByKey id ((t.filter (fun r => r.orftype == "new")).map
          (fun r => r.orfname))).contains nm then
        some (if aap.all (fun p => !(orfPosOf F t0 nm).contains p) then "new_iso"
              else "Giso")
      else none) t := hr
  obtain ⟨r0, hr0, rfl⟩ := List.mem_map.mp hr2
  rw [relabelApply_orftype]
  by_cases hc : (dedupByKey (id : String → String)
      ((t.filter (fun r => r.orftype == "new")).map
        (fun r => r.orfname))).contains r0.orfname = true
  · rw [if_pos hc, Option.getD_some]
    split <;> decide
  · rw [if_neg hc, Option.getD_none]
    intro hnew
    apply hc
    have hmem : r0.orfname ∈ (t.filter (fun r => r.orftype == "new")).map
        (fun r => r.orfname) :=
      List.mem_map.mpr ⟨r0, List.mem_filter.mpr ⟨hr0, by simp [hnew]⟩, rfl⟩
    obtain ⟨a, ha, hka⟩ := exists_dedupByKey_rep id _ _ hmem
    simp only [id] at hka
    subst hka
    simpa using ha

/-- C4: in a family with at least one eligible annotated CDS (both boundaries
present, length a multiple of three — i.e. `cds_info` is non-empty), the
classification cascade leaves no row typed `new`, so the final assertion of
the source can never fail. -/
theorem C4_thm (genome : String → Nat → Char) (codons : List String)
    (sources : List (List (String × List AnnotTranscript))) (extracds : Bool)
    (F : FamilyInput) (tbl : List OrfRow)
    (hann : tfamHasAnnots sources F.tfam = true)
    (hcds : cdsInfoFor sources F ≠ [])
    (hid : identifyTfamOrfs genome codons sources extracds F = some tbl) :
    ∀ r ∈ tbl, r.orftype ≠ "new" := by
  obtain rfl := identify_some_elim genome codons sources extracds F tbl hid
  unfold identifyCore
  rw [hann, if_pos rfl, if_neg (by simpa [List.isEmpty_iff] using hcds)]
  intro r hr
  unfold classifyCascade at hr
  exact newIsoGiso_no_new _ _ _ _ r hr

/-- C4 witness: the row of the concrete annotated family `fam7` (source
`srcs4`) is not typed `new` after the cascade. -/
theorem C4_witness :
    (((identifyTfamOrfs genome7 ["ATG"] srcs4 false fam7).getD []).getD 0
      dummyRow).orftype ≠ "new" :=
  C4_thm genome7 ["ATG"] srcs4 false fam7 _ (by decide) (by decide) rfl
    _ (by decide)

theorem getD_mem_of_lt {α : Type} (l : List α) {i : Nat} (h : i < l.length) (d : α) :
    l.getD i d ∈ l := by
  rw [List.getD_eq_getElem _ _ h]
  exact List.getElem_mem h

theorem relabelF_getD_orftype (v : String → Option String) (t : List OrfRow)
    (i : Nat) (hi : i < t.length) :
    ((relabelF v t).getD i dummyRow).orftype =
      (v ((t.getD i dummyRow).orfname)).getD (t.getD i dummyRow).orftype := by
  rw [show relabelF v t = t.map (relabelApply v) from rfl,
    getD_map_lt (relabelApply v) t hi dummyRow dummyRow, relabelApply_orftype]

theorem relabelF_getD_fields (v : String → Option String) (t : List OrfRow)
    (i : Nat) (hi : i < t.length) :
    ((relabelF v t).getD i dummyRow).tid = (t.getD i dummyRow).tid ∧
    ((relabelF v t).getD i dummyRow).tcoord = (t.getD i dummyRow).tcoord ∧
    ((relabelF v t).getD i dummyRow).tstop = (t.getD i dummyRow).tstop ∧
    ((relabelF v t).getD i dummyRow).orfname = (t.getD i dummyRow).orfname := by
  rw [show relabelF v t = t.map (relabelApply v) from rfl,
    getD_map_lt (relabelApply v) t hi dummyRow dummyRow]
  exact ⟨(relabelApply_fields v _).1, (relabelApply_fields v _).2.1,
    (relabelApply_fields v _).2.2.1, (relabelApply_fields v _).2.2.2.1⟩

/-- A `sameTransStep` rule fires on row `i` when it is `new` and some
`annotated` row on the same transcript satisfies the rule's condition. -/
theorem sameTransStep_getD_fires (cond : OrfRow → OrfRow → Bool) (label : String)
    (t : List OrfRow) (i : Nat) (hi : i < t.length)
    (hnew : (t.getD i dummyRow).orftype = "new")
    (a : OrfRow) (hmem : a ∈ t) (hann : a.orftype = "annotated")
    (htid : a.tid = (t.getD i dummyRow).tid)
    (hcond : cond (t.getD i dummyRow) a = true) :
    ((sameTransStep cond label t).getD i dummyRow).orftype = label := by
  have h1 : sameTransStep cond label t = relabelF (fun nm =>
      if ((t.filter (fun r => r.orftype == "new" && t.any (fun a =>
          a.orftype == "annotated" && a.tid == r.tid && cond r a))).map
          (fun r => r.orfname)).contains nm then some label else none) t := rfl
  rw [h1, relabelF_getD_orftype _ _ _ hi]
  have hP : (t.getD i dummyRow) ∈ t.filter (fun r => r.orftype == "new" &&
      t.any (fun a => a.orftype == "annotated" && a.tid == r.tid && cond r a)) := by
    refine List.mem_filter.mpr ⟨getD_mem_of_lt t hi dummyRow, ?_⟩
    refine (Bool.and_eq_true _ _).mpr ⟨by simp only [beq_iff_eq]; exact hnew, ?_⟩
    refine List.any_eq_true.mpr ⟨a, hmem, ?_⟩
    simp only [Bool.and_eq_true, beq_iff_eq]
    exact ⟨⟨hann, htid⟩, hcond⟩
  have hc : ((t.filter (fun r => r.orftype == "new" && t.any (fun a =>
      a.orftype == "annotated" && a.tid == r.tid && cond r a))).map
      (fun r => r.orfname)).contains (t.getD i dummyRow).orfname = true := by
    have hm : (t.getD i dummyRow).orfname ∈ (t.filter (fun r => r.orftype == "new" &&
        t.any (fun a => a.orftype == "annotated" && a.tid == r.tid && cond r a))).map
        (fun r => r.orfname) := List.mem_map.mpr ⟨_, hP, rfl⟩
    simpa using hm
  rw [if_pos hc, Option.getD_some]

/-- A `sameTransStep` rule leaves row `j` untouched when no `new` row shares
its name (in particular, under per-name `orftype` uniformity, any non-`new`
row). -/
theorem sameTransStep_getD_keeps (cond : OrfRow → OrfRow → Bool) (label : String)
    (t : List OrfRow) (j : Nat) (hj : j < t.length)
    (huni : ∀ r ∈ t, ∀ s ∈ t, r.orfname = s.orfname → r.orftype = s.orftype)
    (hnn : (t.getD j dummyRow).orftype ≠ "new") :
    ((sameTransStep cond label t).getD j dummyRow).orftype =
      (t.getD j dummyRow).orftype := by
  have h1 : sameTransStep cond label t = relabelF (fun nm =>
      if ((t.filter (fun r => r.orftype == "new" && t.any (fun a =>
          a.orftype == "annotated" && a.tid == r.tid && cond r a))).map
          (fun r => r.orfname)).contains nm then some label else none) t := rfl
  rw [h1, relabelF_getD_orftype _ _ _ hj]
  by_cases hc : ((t.filter (fun r => r.orftype == "new" && t.any (fun a =>
      a.orftype == "annotated" && a.tid == r.tid && cond r a))).map
      (fun r => r.orfname)).contains (t.getD j dummyRow).orfname = true
  · exfalso
    have hm : (t.getD j dummyRow).orfname ∈ (t.filter (fun r => r.orftype == "new" &&
        t.any (fun a => a.orftype == "annotated" && a.tid == r.tid && cond r a))).map
        (fun r => r.orfname) := by simpa using hc
    obtain ⟨x, hx, hxn⟩ := List.mem_map.mp hm
    have hx2 := List.mem_filter.mp hx
    have hxnew : x.orftype = "new" := by
      have := (Bool.and_eq_true _ _).mp hx2.2
      simpa using this.1
    have heq := huni x hx2.1 (t.getD j dummyRow) (getD_mem_of_lt t hj dummyRow) hxn
    exact hnn (heq ▸ hxnew)
  · rw [if_neg hc, Option.getD_none]

/-- C5: an ORF still unclassified when the truncation rule runs, lying on the
same transcript as an `annotated` ORF and sharing its transcript-local stop,
becomes `truncation` when it starts strictly downstream of it; if instead it
starts strictly upstream and is still unclassified when the extension rule
runs, it becomes `extension`.  (Per-name `orftype` uniformity, which the
pipeline guarantees, is assumed of the input table.) -/
theorem C5_thm (t : List OrfRow) (i j : Nat)
    (hi : i < t.length) (hj : j < t.length)
    (huni : ∀ r ∈ t, ∀ s ∈ t, r.orfname = s.orfname → r.orftype = s.orftype)
    (ho : (t.getD i dummyRow).orftype = "new")
    (ha : (t.getD j dummyRow).orftype = "annotated")
    (htid : (t.getD i dummyRow).tid = (t.getD j dummyRow).tid)
    (hts : (t.getD i dummyRow).tstop = (t.getD j dummyRow).tstop) :
    ((t.getD i dummyRow).tcoord > (t.getD j dummyRow).tcoord →
      ((truncationStep t).getD i dummyRow).orftype = "truncation") ∧
    ((t.getD i dummyRow).tcoord < (t.getD j dummyRow).tcoord →
      ((truncationStep t).getD i dummyRow).orftype = "new" →
      ((extensionStep (truncationStep t)).getD i dummyRow).orftype = "extension") := by
  constructor
  · intro hgt
    refine sameTransStep_getD_fires _ "truncation" t i hi ho
      (t.getD j dummyRow) (getD_mem_of_lt t hj dummyRow) ha htid.symm ?_
    simp only [hts, hgt, beq_self_eq_true]
    decide
  · intro _ hstill
    have hlen : (truncationStep t).length = t.length := List.length_map _ _
    have hi2 : i < (truncationStep t).length := by rw [hlen]; exact hi
    have hj2 : j < (truncationStep t).length := by rw [hlen]; exact hj
    have hfI : ((truncationStep t).getD i dummyRow).tid = (t.getD i dummyRow).tid ∧
        ((truncationStep t).getD i dummyRow).tcoord = (t.getD i dummyRow).tcoord ∧
        ((truncationStep t).getD i dummyRow).tstop = (t.getD i dummyRow).tstop ∧
        ((truncationStep t).getD i dummyRow).orfname = (t.getD i dummyRow).orfname :=
      relabelF_getD_fields _ t i hi
    have hfJ : ((truncationStep t).getD j dummyRow).tid = (t.getD j dummyRow).tid ∧
        ((truncationStep t).getD j dummyRow).tcoord = (t.getD j dummyRow).tcoord ∧
        ((truncationStep t).getD j dummyRow).tstop = (t.getD j dummyRow).tstop ∧
        ((truncationStep t).getD j dummyRow).orfname = (t.getD j dummyRow).orfname :=
      relabelF_getD_fields _ t j hj
    have hkeep : ((truncationStep t).getD j dummyRow).orftype = "annotated" := by
      have h : ((truncationStep t).getD j dummyRow).orftype =
          (t.getD j dummyRow).orftype :=
        sameTransStep_getD_keeps
          (fun r a => a.tstop == r.tstop && decide (r.tcoord > a.tcoord)) "truncation"
          t j hj huni (by rw [ha]; decide)
      rw [h, ha]
    refine sameTransStep_getD_fires _ "extension" (truncationStep t) i hi2 hstill
      ((truncationStep t).getD j dummyRow) (getD_mem_of_lt _ hj2 dummyRow) hkeep
      ?_ ?_
    · rw [hfJ.1, hfI.1]; exact htid.symm
    · rw [hfJ.2.2.1, hfI.2.2.1, hts]
      exact beq_self_eq_true _

/-- C5 witness: on concrete two-row tables, the downstream-start ORF becomes
`truncation` and the upstream-start ORF becomes `extension`. -/
theorem C5_witness :
    ((truncationStep t5a).getD 0 dummyRow).orftype = "truncation" ∧
    ((extensionStep (truncationStep t5b)).getD 0 dummyRow).orftype = "extension" :=
  ⟨(C5_thm t5a 0 1 (by decide) (by decide) (by decide) (by decide) (by decide)
      (by decide) (by decide)).1 (by decide),
   (C5_thm t5b 0 1 (by decide) (by decide) (by decide) (by decide) (by decide)
      (by decide) (by decide)).2 (by decide) (by decide)⟩

/-! ## Decimal rendering: characterization and injectivity -/

theorem natCharsAux_eq_digits :
    ∀ (fuel n : Nat), n ≤ fuel →
      natCharsAux fuel n = (Nat.digits 10 n).reverse.map digitChar := by
  intro fuel
  induction fuel with
  | zero =>
    intro n hn
    interval_cases n
    simp [natCharsAux]
  | succ fuel ih =>
    intro n hn
    match n with
    | 0 => simp [natCharsAux]
    | m + 1 =>
      rw [natCharsAux]
      have hdiv : (m + 1) / 10 ≤ fuel := by
        have : (m + 1) / 10 < m + 1 := Nat.div_lt_self (Nat.succ_pos m) (by norm_num)
        omega
      rw [ih _ hdiv, Nat.digits_def' (by norm_num : (1:Nat) < 10) (Nat.succ_pos m)]
      simp

theorem natChars_eq_digits (n : Nat) (hn : 0 < n) :
    natChars n = (Nat.digits 10 n).reverse.map digitChar := by
  rw [natChars, if_neg (by omega)]
  exact natCharsAux_eq_digits n n le_rfl

theorem digitChar_inj_lt :
    ∀ a < 10, ∀ b < 10, digitChar a = digitChar b → a = b := by decide

theorem digitChar_ne_us_a : ∀ d < 10,
    digitChar d ≠ '_' ∧ digitChar d ≠ 'a' := by decide

theorem map_digitChar_inj : ∀ (l1 l2 : List Nat), (∀ d ∈ l1, d < 10) →
    (∀ d ∈ l2, d < 10) → l1.map digitChar = l2.map digitChar → l1 = l2
  | [], [], _, _, _ => rfl
  | [], _ :: _, _, _, h => by simp at h
  | _ :: _, [], _, _, h => by simp at h
  | a :: l1, b :: l2, h1, h2, h => by
    simp only [List.map_cons, List.cons.injEq] at h
    have hab : a = b := digitChar_inj_lt a (h1 a (by simp)) b (h2 b (by simp)) h.1
    rw [hab, map_digitChar_inj l1 l2 (fun d hd => h1 d (List.mem_cons_of_mem _ hd))
      (fun d hd => h2 d (List.mem_cons_of_mem _ hd)) h.2]

/-- A digit character string never contains the separator or the letter used
by the name scem. -/
theorem natChars_no_sep (n : Nat) : '_' ∉ natChars n ∧ 'a' ∉ natChars n := by
  rcases Nat.eq_zero_or_pos n with rfl | hn
  · constructor <;> decide
  · rw [natChars_eq_digits n hn]
    constructor <;>
    · intro hmem
      obtain ⟨d, hd, hdc⟩ := List.mem_map.mp hmem
      have hd10 : d < 10 :=
        Nat.digits_lt_base (by norm_num) (List.mem_reverse.mp hd)
      rcases digitChar_ne_us_a d hd10 with ⟨h1, h2⟩
      simp_all

theorem natChars_inj {m n : Nat} (h : natChars m = natChars n) : m = n := by
  rcases Nat.eq_zero_or_pos m with rfl | hm <;> rcases Nat.eq_zero_or_pos n with rfl | hn
  · rfl
  · exfalso
    rw [natChars_eq_digits n hn] at h
    have hlen : ((Nat.digits 10 n).reverse.map digitChar).length = 1 := by
      rw [← h]; decide
    simp only [List.length_map, List.length_reverse] at hlen
    obtain ⟨d, hd⟩ := List.length_eq_one.mp hlen
    have hd10 : d < 10 := Nat.digits_lt_base (by norm_num) (by rw [hd]; simp)
    have : n = d := by
      conv_lhs => rw [← Nat.ofDigits_digits 10 n, hd]
      simp [Nat.ofDigits]
    have hchar : digitChar d = '0' := by
      rw [hd] at h
      simpa [natChars] using h.symm
    have : d = 0 := digitChar_inj_lt d hd10 0 (by norm_num) (by simpa using hchar)
    omega
  · exfalso
    rw [natChars_eq_digits m hm] at h
    have hlen : ((Nat.digits 10 m).reverse.map digitChar).length = 1 := by
      rw [h]; decide
    simp only [List.length_map, List.length_reverse] at hlen
    obtain ⟨d, hd⟩ := List.length_eq_one.mp hlen
    have hd10 : d < 10 := Nat.digits_lt_base (by norm_num) (by rw [hd]; simp)
    have : m = d := by
      conv_lhs => rw [← Nat.ofDigits_digits 10 m, hd]
      simp [Nat.ofDigits]
    have hchar : digitChar d = '0' := by
      rw [hd] at h
      simpa [natChars] using h
    have : d = 0 := digitChar_inj_lt d hd10 0 (by norm_num) (by simpa using hchar)
    omega
  · rw [natChars_eq_digits m hm, natChars_eq_digits n hn] at h
    have hm10 : ∀ d ∈ (Nat.digits 10 m).reverse, d < 10 := fun d hd =>
      Nat.digits_lt_base (by norm_num) (List.mem_reverse.mp hd)
    have hn10 : ∀ d ∈ (Nat.digits 10 n).reverse, d < 10 := fun d hd =>
      Nat.digits_lt_base (by norm_num) (List.mem_reverse.mp hd)
    have hrev := map_digitChar_inj _ _ hm10 hn10 h
    have hdig : Nat.digits 10 m = Nat.digits 10 n := List.reverse_injective hrev
    calc m = Nat.ofDigits 10 (Nat.digits 10 m) := (Nat.ofDigits_digits 10 m).symm
      _ = Nat.ofDigits 10 (Nat.digits 10 n) := by rw [hdig]
      _ = n := Nat.ofDigits_digits 10 n

/-! ## Name encoding injectivity -/

theorem sep_inj {α : Type} (c : α) :
    ∀ (xs ys xs2 ys2 : List α), c ∉ xs → c ∉ ys →
      xs ++ c :: xs2 = ys ++ c :: ys2 → xs = ys ∧ xs2 = ys2 := by
  intro xs
  induction xs with
  | nil =>
    intro ys xs2 ys2 _ hys h
    cases ys with
    | nil =>
      simp only [List.nil_append, List.cons.injEq] at h
      exact ⟨rfl, h.2⟩
    | cons b ys =>
      simp only [List.nil_append, List.cons_append, List.cons.injEq] at h
      exact absurd (h.1 ▸ List.mem_cons_self _ _) hys
  | cons a xs ih =>
    intro ys xs2 ys2 hxs hys h
    cases ys with
    | nil =>
      simp only [List.cons_append, List.nil_append, List.cons.injEq] at h
      exact absurd (h.1 ▸ List.mem_cons_self _ _) (h.1 ▸ hxs)
    | cons b ys =>
      simp only [List.cons_append, List.cons.injEq] at h
      obtain ⟨hab, htail⟩ := h
      have hxs2 : c ∉ xs := fun hc => hxs (List.mem_cons_of_mem _ hc)
      have hys2 : c ∉ ys := fun hc => hys (List.mem_cons_of_mem _ hc)
      obtain ⟨h1, h2⟩ := ih ys xs2 ys2 hxs2 hys2 htail
      exact ⟨by rw [hab, h1], h2⟩

theorem no_sep_aa_block (a : Nat) : '_' ∉ natChars a ++ ['a', 'a'] := by
  intro h
  rcases List.mem_append.mp h with h | h
  · exact (natChars_no_sep a).1 h
  · simp at h

/-- Injectivity of the name encoding after the family stem: the rendered
`gcoord`, `AAlen` and optional collision suffix are all determined by the
name string. -/
theorem nameEnc_inj (tfam : String) (g a : Nat) (k : Option Nat)
    (g2 a2 : Nat) (k2 : Option Nat)
    (h : tfam.data ++ '_' :: (natChars g ++ '_' ::
          (natChars a ++ 'a' :: 'a' :: restEnc k)) =
        tfam.data ++ '_' :: (natChars g2 ++ '_' ::
          (natChars a2 ++ 'a' :: 'a' :: restEnc k2))) :
    g = g2 ∧ a = a2 ∧ k = k2 := by
  have h1 := List.append_cancel_left h
  injection h1 with _ h2
  obtain ⟨hg, h3⟩ := sep_inj '_' (natChars g) (natChars g2) _ _
    (natChars_no_sep g).1 (natChars_no_sep g2).1 h2
  refine ⟨natChars_inj hg, ?_⟩
  have h4 : (natChars a ++ ['a', 'a']) ++ restEnc k =
      (natChars a2 ++ ['a', 'a']) ++ restEnc k2 := by
    simpa [List.append_assoc] using h3
  cases k with
  | none =>
    cases k2 with
    | none =>
      simp only [restEnc, List.append_nil] at h4
      have := List.append_cancel_right h4
      exact ⟨natChars_inj this, rfl⟩
    | some k2 =>
      exfalso
      simp only [restEnc, List.append_nil] at h4
      have : '_' ∈ natChars a ++ ['a', 'a'] := by
        rw [h4]
        exact List.mem_append.mpr (Or.inr (List.mem_cons_self _ _))
      exact no_sep_aa_block a this
  | some k1 =>
    cases k2 with
    | none =>
      exfalso
      simp only [restEnc, List.append_nil] at h4
      have : '_' ∈ natChars a2 ++ ['a', 'a'] := by
        rw [← h4]
        exact List.mem_append.mpr (Or.inr (List.mem_cons_self _ _))
      exact no_sep_aa_block a2 this
    | some k2 =>
      simp only [restEnc] at h4
      obtain ⟨hblock, hk⟩ := sep_inj '_' (natChars a ++ ['a', 'a'])
        (natChars a2 ++ ['a', 'a']) _ _ (no_sep_aa_block a) (no_sep_aa_block a2) h4
      have ha : natChars a = natChars a2 := List.append_cancel_right hblock
      exact ⟨natChars_inj ha, by rw [natChars_inj hk]⟩

/-- The character data of the base name `'%s_%d_%daa'`. -/
theorem name_orf_data (tfam : String) (g a : Nat) :
    (name_orf tfam g a).data = tfam.data ++ '_' ::
      (natChars g ++ '_' :: (natChars a ++ 'a' :: 'a' :: restEnc none)) := by
  have h1 : ("_" : String).data = ['_'] := rfl
  have h2 : ("aa" : String).data = ['a', 'a'] := rfl
  simp [name_orf, natToStr, h1, h2, restEnc, List.append_assoc]

/-- The character data of the suffixed name `'%s_%d'` applied to a base name. -/
theorem name_suffix_data (tfam : String) (g a k : Nat) :
    (name_orf tfam g a ++ "_" ++ natToStr k).data = tfam.data ++ '_' ::
      (natChars g ++ '_' :: (natChars a ++ 'a' :: 'a' :: restEnc (some k))) := by
  have h1 : ("_" : String).data = ['_'] := rfl
  have h2 : ("aa" : String).data = ['a', 'a'] := rfl
  simp [name_orf, natToStr, h1, h2, restEnc, List.append_assoc]

/-! ## The naming invariant -/

theorem idxOfFp_inj {α : Type} [BEq α] [LawfulBEq α] :
    ∀ (l : List α) (x y : α), x ∈ l → y ∈ l → idxOfFp l x = idxOfFp l y → x = y
  | [], x, y, hx, _, _ => absurd hx (List.not_mem_nil x)
  | a :: l, x, y, hx, hy, h => by
    simp only [idxOfFp] at h
    by_cases hax : (a == x) = true <;> by_cases hay : (a == y) = true
    · exact (eq_of_beq hax).symm.trans (eq_of_beq hay)
    · rw [if_pos hax, if_neg hay] at h
      exact absurd h.symm (Nat.succ_ne_zero _)
    · rw [if_neg hax, if_pos hay] at h
      exact absurd h (Nat.succ_ne_zero _)
    · rw [if_neg hax, if_neg hay] at h
      have hx2 : x ∈ l := by
        rcases List.mem_cons.mp hx with hh | hh
        · exfalso; apply hax; rw [hh]; exact beq_self_eq_true a
        · exact hh
      have hy2 : y ∈ l := by
        rcases List.mem_cons.mp hy with hh | hh
        · exfalso; apply hay; rw [hh]; exact beq_self_eq_true a
        · exact hh
      exact idxOfFp_inj l x y hx2 hy2 (Nat.succ_injective h)

theorem mem_dedupByKey_id {α : Type} [BEq α] [LawfulBEq α] (l : List α) (x : α) :
    x ∈ dedupByKey id l ↔ x ∈ l := by
  constructor
  · exact mem_of_mem_dedupByKey id l x
  · intro hx
    obtain ⟨a, ha, hax⟩ := exists_dedupByKey_rep id l x hx
    have : a = x := hax
    exact this ▸ ha

/-- Every name the grouping loop produces has the stem/suffix shape. -/
theorem nameOf_data_shape (F : FamilyInput) (t : List OrfRow) (r : OrfRow) :
    ∃ k : Option Nat, (nameOf F t r).data = F.tfam.data ++ '_' ::
      (natChars r.gcoord ++ '_' :: (natChars r.AAlen ++ 'a' :: 'a' :: restEnc k)) := by
  simp only [nameOf]
  split
  · exact ⟨none, name_orf_data _ _ _⟩
  · split
    · exact ⟨none, name_orf_data _ _ _⟩
    · exact ⟨some _, name_suffix_data _ _ _ _⟩

set_option maxHeartbeats 2000000 in
/-- The core naming invariant, on the table the grouping loop works over: two
rows receive the same name exactly when they agree on the grouping key
`(gcoord, AAlen)` and on the footprint slice the loop compares. -/
theorem nameOf_eq_iff (F : FamilyInput) (t : List OrfRow) (r s : OrfRow)
    (hr : r ∈ t) (hs : s ∈ t) :
    nameOf F t r = nameOf F t s ↔
      (r.gcoord = s.gcoord ∧ r.AAlen = s.AAlen ∧ fpOf F r = fpOf F s) := by
  constructor
  · intro h
    obtain ⟨kr, hkr⟩ := nameOf_data_shape F t r
    obtain ⟨ks, hks⟩ := nameOf_data_shape F t s
    have hdata : (nameOf F t r).data = (nameOf F t s).data := by rw [h]
    rw [hkr, hks] at hdata
    obtain ⟨hg, ha, _⟩ := nameEnc_inj F.tfam _ _ _ _ _ _ hdata
    refine ⟨hg, ha, ?_⟩
    have hgrp : t.filter (fun x => x.gcoord == s.gcoord && x.AAlen == s.AAlen) =
        t.filter (fun x => x.gcoord == r.gcoord && x.AAlen == r.AAlen) := by
      simp only [hg, ha]
    have hrmem : r ∈ t.filter (fun x => x.gcoord == r.gcoord && x.AAlen == r.AAlen) :=
      List.mem_filter.mpr ⟨hr, by simp⟩
    have hsmem : s ∈ t.filter (fun x => x.gcoord == r.gcoord && x.AAlen == r.AAlen) := by
      rw [← hgrp]
      exact List.mem_filter.mpr ⟨hs, by simp⟩
    by_cases hlen : (t.filter (fun x => x.gcoord == r.gcoord &&
        x.AAlen == r.AAlen)).length = 1
    · obtain ⟨x, hx⟩ := List.length_eq_one.mp hlen
      rw [hx] at hrmem hsmem
      simp only [List.mem_singleton] at hrmem hsmem
      rw [hrmem, hsmem]
    · by_cases hall : (((t.filter (fun x => x.gcoord == r.gcoord &&
          x.AAlen == r.AAlen)).map (fpOf F)).all (fun fp =>
            fp == ((t.filter (fun x => x.gcoord == r.gcoord &&
              x.AAlen == r.AAlen)).map (fpOf F)).headD [])) = true
      · have hfr : fpOf F r = ((t.filter (fun x => x.gcoord == r.gcoord &&
            x.AAlen == r.AAlen)).map (fpOf F)).headD [] := by
          have := List.all_eq_true.mp hall (fpOf F r)
            (List.mem_map.mpr ⟨r, hrmem, rfl⟩)
          simpa using this
        have hfs : fpOf F s = ((t.filter (fun x => x.gcoord == r.gcoord &&
            x.AAlen == r.AAlen)).map (fpOf F)).headD [] := by
          have := List.all_eq_true.mp hall (fpOf F s)
            (List.mem_map.mpr ⟨s, hsmem, rfl⟩)
          simpa using this
        rw [hfr, hfs]
      · have hlenb : ((t.filter (fun x => x.gcoord == r.gcoord &&
            x.AAlen == r.AAlen)).length == 1) = false := by
          simp only [beq_eq_false_iff_ne, ne_eq]
          exact hlen
        have hallb : (((t.filter (fun x => x.gcoord == r.gcoord &&
            x.AAlen == r.AAlen)).map (fpOf F)).all (fun fp =>
              fp == ((t.filter (fun x => x.gcoord == r.gcoord &&
                x.AAlen == r.AAlen)).map (fpOf F)).headD [])) = false := by
          exact Bool.eq_false_iff.mpr hall
        have hnr : nameOf F t r = name_orf F.tfam r.gcoord r.AAlen ++ "_" ++
            natToStr (idxOfFp (dedupByKey id ((t.filter (fun x => x.gcoord == r.gcoord &&
              x.AAlen == r.AAlen)).map (fpOf F))) (fpOf F r)) := by
          simp only [nameOf]
          rw [hlenb, hallb]
          simp
        have hlenb2 : ((t.filter (fun x => x.gcoord == s.gcoord &&
            x.AAlen == s.AAlen)).length == 1) = false := by
          rw [hgrp]; exact hlenb
        have hallb2 : (((t.filter (fun x => x.gcoord == s.gcoord &&
            x.AAlen == s.AAlen)).map (fpOf F)).all (fun fp =>
              fp == ((t.filter (fun x => x.gcoord == s.gcoord &&
                x.AAlen == s.AAlen)).map (fpOf F)).headD [])) = false := by
          rw [hgrp]; exact hallb
        have hns : nameOf F t s = name_orf F.tfam s.gcoord s.AAlen ++ "_" ++
            natToStr (idxOfFp (dedupByKey id ((t.filter (fun x => x.gcoord == r.gcoord &&
              x.AAlen == r.AAlen)).map (fpOf F))) (fpOf F s)) := by
          simp only [nameOf]
          rw [hlenb2, hallb2, hgrp]
          simp
        rw [hnr, hns] at h
        have hdata2 := congrArg String.data h
        rw [name_suffix_data, name_suffix_data] at hdata2
        obtain ⟨_, _, hkk⟩ := nameEnc_inj F.tfam _ _ _ _ _ _ hdata2
        have hidx : idxOfFp (dedupByKey id ((t.filter (fun x => x.gcoord == r.gcoord &&
            x.AAlen == r.AAlen)).map (fpOf F))) (fpOf F r) =
            idxOfFp (dedupByKey id ((t.filter (fun x => x.gcoord == r.gcoord &&
              x.AAlen == r.AAlen)).map (fpOf F))) (fpOf F s) := by
          injection hkk
        have hmr : fpOf F r ∈ dedupByKey id ((t.filter (fun x =>
            x.gcoord == r.gcoord && x.AAlen == r.AAlen)).map (fpOf F)) :=
          (mem_dedupByKey_id _ _).mpr (List.mem_map.mpr ⟨r, hrmem, rfl⟩)
        have hms : fpOf F s ∈ dedupByKey id ((t.filter (fun x =>
            x.gcoord == r.gcoord && x.AAlen == r.AAlen)).map (fpOf F)) :=
          (mem_dedupByKey_id _ _).mpr (List.mem_map.mpr ⟨s, hsmem, rfl⟩)
        exact idxOfFp_inj _ _ _ hmr hms hidx
  · intro hc
    obtain ⟨hg, ha, hfp⟩ := hc
    simp only [nameOf, hg, ha, hfp]

/-! ## Well-formedness: coverage mask and footprint facts -/

theorem isSublistB_sound : ∀ (l m : List Nat), isSublistB l m = true → l.Sublist m
  | [], m, _ => List.nil_sublist m
  | _ :: _, [], h => by simp [isSublistB] at h
  | a :: l, b :: m, h => by
    rw [isSublistB] at h
    split at h
    next hab =>
      subst hab
      exact List.Sublist.cons₂ _ (isSublistB_sound l m h)
    next => exact List.Sublist.cons _ (isSublistB_sound (a :: l) m h)

theorem filter_contains_of_sublist (tpos genpos : List Nat)
    (hsub : tpos.Sublist genpos) (hnd : genpos.Nodup) :
    genpos.filter (fun x => tpos.contains x) = tpos := by
  revert hnd
  induction hsub with
  | slnil => intro _; rfl
  | @cons l1 l2 a hs ih =>
    intro hnd
    obtain ⟨hna, hnd2⟩ := List.nodup_cons.mp hnd
    rw [List.filter_cons]
    have hal1 : l1.contains a = false := by
      have : a ∉ l1 := fun hc => hna (hs.subset hc)
      simpa using this
    rw [hal1]
    simp only [Bool.false_eq_true, if_false]
    exact ih hnd2
  | @cons₂ l1 l2 a hs ih =>
    intro hnd
    obtain ⟨hna, hnd2⟩ := List.nodup_cons.mp hnd
    rw [List.filter_cons]
    have hhead : ((a :: l1).contains a) = true := by simp
    rw [hhead, if_pos rfl]
    have hcg : ∀ x ∈ l2, ((a :: l1).contains x) = (l1.contains x) := by
      intro x hx
      have hxa : ¬ x = a := fun hh => hna (hh ▸ hx)
      rw [List.contains_cons]
      simp [hxa]
    rw [List.filter_congr hcg, ih hnd2]

theorem range_filter_map_getD (l : List Nat) (p : Nat → Bool) :
    ((List.range l.length).filter (fun j => p (l.getD j 0))).map
      (fun j => l.getD j 0) = l.filter p := by
  induction l with
  | nil => simp
  | cons a l ih =>
    have hsucc :
        ((List.range l.length).map Nat.succ).filter
            (fun j => p ((a :: l).getD j 0)) =
          ((List.range l.length).filter (fun j => p (l.getD j 0))).map Nat.succ := by
      rw [List.filter_map]
      congr 1
    have hcomp : ∀ R : List Nat,
        (R.map Nat.succ).map (fun j => (a :: l).getD j 0) =
          R.map (fun j => l.getD j 0) := by
      intro R
      rw [List.map_map]
      apply List.map_congr_left
      intro x _
      simp [Function.comp]
    rw [List.length_cons, List.range_succ_eq_map, List.filter_cons]
    by_cases hpa : p ((a :: l).getD 0 0) = true
    · rw [if_pos hpa, List.map_cons, hsucc, hcomp, ih]
      have hpa2 : p a = true := by simpa using hpa
      rw [List.filter_cons, if_pos hpa2, List.getD_cons_zero]
    · rw [if_neg hpa, hsucc, hcomp, ih]
      have hpa2 : ¬ p a = true := by simpa using hpa
      rw [List.filter_cons, if_neg hpa2]

theorem fnzRow_map (genpos tpos : List Nat) (hsub : tpos.Sublist genpos)
    (hnd : genpos.Nodup) :
    (fnzRow genpos tpos).map (fun j => genpos.getD j 0) = tpos := by
  rw [fnzRow, range_filter_map_getD genpos (fun x => tpos.contains x),
    filter_contains_of_sublist tpos genpos hsub hnd]

theorem fnzRow_length (genpos tpos : List Nat) (hsub : tpos.Sublist genpos)
    (hnd : genpos.Nodup) :
    (fnzRow genpos tpos).length = tpos.length := by
  have h := congrArg List.length (fnzRow_map genpos tpos hsub hnd)
  simpa using h

theorem fpSlice_map (genpos tpos : List Nat) (a b : Nat)
    (hsub : tpos.Sublist genpos) (hnd : genpos.Nodup) :
    (((fnzRow genpos tpos).drop a).take (b - a)).map (fun j => genpos.getD j 0) =
      (tpos.drop a).take (b - a) := by
  rw [List.map_take, List.map_drop, fnzRow_map genpos tpos hsub hnd]

theorem stopScan_bounds : ∀ (l : List Char) (k e : Nat), stopScan l k = some e →
    k + 3 ≤ e ∧ e ≤ k + l.length
  | [], _, _, h => by simp [stopScan] at h
  | [_], _, _, h => by simp [stopScan] at h
  | [_, _], _, _, h => by simp [stopScan] at h
  | a :: b :: c :: rest, k, e, h => by
    rw [stopScan] at h
    split at h
    · injection h with h2
      simp only [List.length_cons]
      omega
    · have := stopScan_bounds rest (k + 3) e h
      simp only [List.length_cons]
      omega

theorem stopOffset_cases (seq : List Char) (i : Nat) :
    stopOffset seq i = 0 ∨
      (i + 3 ≤ stopOffset seq i ∧ stopOffset seq i ≤ seq.length) := by
  rw [stopOffset]
  cases hscan : stopScan (seq.drop i) 0 with
  | none => exact Or.inl rfl
  | some e =>
    right
    simp only [hscan]
    have hb := stopScan_bounds _ _ _ hscan
    have hdl : (seq.drop i).length = seq.length - i := List.length_drop _ _
    omega

theorem find_all_orfs_mem_elim (codons : List String) (seq : List Char)
    (e : Nat × Nat × List Char) (he : e ∈ find_all_orfs codons seq) :
    e.1 + 3 ≤ seq.length ∧
    (e.2.1 = 0 ∨ (e.1 + 3 ≤ e.2.1 ∧ e.2.1 ≤ seq.length)) := by
  have hrw : find_all_orfs codons seq =
      (List.range (seq.length - 2)).filterMap (fun j =>
        if startMatch codons ((seq.drop j).take 3) then
          some (j, stopOffset seq j, (seq.drop j).take 3)
        else none) := rfl
  rw [hrw] at he
  obtain ⟨j, hj, hsome⟩ := List.mem_filterMap.mp he
  rw [List.mem_range] at hj
  split at hsome
  · injection hsome with h2
    subst h2
    refine ⟨by omega, ?_⟩
    simpa using stopOffset_cases seq j
  · cases hsome

theorem transcriptRows_mem_elim (genome : String → Nat → Char)
    (codons : List String) (F : FamilyInput) (T : Transcript) (r : OrfRow)
    (hr : r ∈ transcriptRows genome codons F T) :
    r.tid = T.tid ∧ r.tfam = F.tfam ∧ r.strand = F.strand ∧
    r.orfname = "" ∧ r.orftype = "new" ∧ r.annot_start = false ∧
    r.annot_stop = false ∧ r.gcoord = T.pos.getD r.tcoord 0 ∧
    r.gstop = gstopOf F.strand T.pos r.tstop ∧
    r.AAlen = AAlenOf r.tcoord r.tstop ∧ r.tcoord + 3 ≤ T.pos.length ∧
    (r.tstop = 0 ∨ (r.tcoord + 3 ≤ r.tstop ∧ r.tstop ≤ T.pos.length)) := by
  unfold transcriptRows at hr
  obtain ⟨e, he, rfl⟩ := List.mem_map.mp hr
  have hb := find_all_orfs_mem_elim codons _ e he
  have hlen :
      ((getSequence genome F.chrom F.strand T.pos).map Char.toUpper).length =
        T.pos.length := by
    rw [List.length_map]
    unfold getSequence
    split <;> rw [List.length_map]
  rw [hlen] at hb
  exact ⟨rfl, rfl, rfl, rfl, rfl, rfl, rfl, rfl, rfl, rfl, hb.1, hb.2⟩

theorem preTable_mem_elim (genome : String → Nat → Char) (codons : List String)
    (F : FamilyInput) (r : OrfRow) (hr : r ∈ preTable genome codons F) :
    ∃ T ∈ F.transcripts, r ∈ transcriptRows genome codons F T := by
  unfold preTable at hr
  obtain ⟨l, hl, hrl⟩ := List.mem_flatten.mp hr
  obtain ⟨T, hT, rfl⟩ := List.mem_map.mp hl
  exact ⟨T, hT, hrl⟩

theorem tposOf_eq (F : FamilyInput) (T : Transcript) (hT : T ∈ F.transcripts)
    (hnd : (F.transcripts.map (fun T => T.tid)).Nodup) :
    tposOf F T.tid = T.pos := by
  rw [tposOf]
  cases hfind : F.transcripts.find? (fun x => x.tid == T.tid) with
  | none =>
    exfalso
    rw [List.find?_eq_none] at hfind
    exact hfind T hT (beq_self_eq_true _)
  | some T2 =>
    have hT2mem := List.mem_of_find?_eq_some hfind
    have hT2tid : T2.tid = T.tid := by simpa using List.find?_some hfind
    have hTT : T2 = T := List.inj_on_of_nodup_map hnd hT2mem hT hT2tid
    rw [hTT]

/-- Consolidated facts about a row of the pre-naming table under
well-formedness. -/
theorem fp_facts (genome : String → Nat → Char) (codons : List String)
    (F : FamilyInput) (hWF : WF F) (r : OrfRow)
    (hr : r ∈ preTable genome codons F) :
    ∃ tpos : List Nat, tposOf F r.tid = tpos ∧
      r.tcoord + 3 ≤ tpos.length ∧
      (r.tstop = 0 ∨ (r.tcoord + 3 ≤ r.tstop ∧ r.tstop ≤ tpos.length)) ∧
      r.gstop = gstopOf F.strand tpos r.tstop ∧
      (fpOf F r).map (fun j => F.genpos.getD j 0) =
        (tpos.drop r.tcoord).take (r.tstop - r.tcoord) ∧
      (fnzRow F.genpos tpos).length = tpos.length := by
  obtain ⟨hnd, hsubs, hnid⟩ := hWF
  obtain ⟨T, hT, hrT⟩ := preTable_mem_elim genome codons F r hr
  obtain ⟨htid, _, _, _, _, _, _, _, hgstop, _, hc3, hcases⟩ :=
    transcriptRows_mem_elim genome codons F T r hrT
  have hsub : T.pos.Sublist F.genpos := isSublistB_sound _ _ (hsubs T hT)
  have htpos : tposOf F r.tid = T.pos := by rw [htid]; exact tposOf_eq F T hT hnid
  refine ⟨T.pos, htpos, hc3, hcases, hgstop, ?_, fnzRow_length _ _ hsub hnd⟩
  rw [fpOf, htpos]
  exact fpSlice_map F.genpos T.pos r.tcoord r.tstop hsub hnd

/-- Under well-formedness the computed footprint slice is empty exactly for
stopless rows. -/
theorem fp_empty_iff (genome : String → Nat → Char) (codons : List String)
    (F : FamilyInput) (hWF : WF F) (r : OrfRow)
    (hr : r ∈ preTable genome codons F) :
    fpOf F r = [] ↔ r.tstop = 0 := by
  obtain ⟨tpos, _, hc3, hcases, _, hmap, _⟩ := fp_facts genome codons F hWF r hr
  have hlen : (fpOf F r).length = ((tpos.drop r.tcoord).take
      (r.tstop - r.tcoord)).length := by
    have := congrArg List.length hmap
    simpa using this
  rw [List.length_take, List.length_drop] at hlen
  constructor
  · intro h
    rw [h] at hlen
    simp only [List.length_nil] at hlen
    rcases hcases with h0 | ⟨h1, h2⟩
    · exact h0
    · exfalso
      omega
  · intro h
    rw [fpOf, h]
    simp

theorem slice_getD_last (l : List Nat) (a b : Nat) (h3 : a + 3 ≤ b)
    (hb : b ≤ l.length) :
    ((l.drop a).take (b - a)).getD (b - a - 1) 0 = l.getD (b - 1) 0 := by
  have hlt : b - a - 1 < ((l.drop a).take (b - a)).length := by
    rw [List.length_take, List.length_drop]
    omega
  have hlt2 : b - 1 < l.length := by omega
  rw [List.getD_eq_getElem _ _ hlt, List.getD_eq_getElem _ _ hlt2,
    List.getElem_take, List.getElem_drop]
  have hidx : a + (b - a - 1) = b - 1 := by omega
  simp only [hidx]

/-- Under well-formedness, rows of the pre-naming table with equal computed
footprints have equal genomic stops. -/
theorem gstop_eq_of_fp_eq (genome : String → Nat → Char) (codons : List String)
    (F : FamilyInput) (hWF : WF F) (r s : OrfRow)
    (hr : r ∈ preTable genome codons F) (hs : s ∈ preTable genome codons F)
    (hfp : fpOf F r = fpOf F s) : r.gstop = s.gstop := by
  obtain ⟨tr, _, hc3r, hcr, hgr, hmr, _⟩ := fp_facts genome codons F hWF r hr
  obtain ⟨ts, _, hc3s, hcs, hgs, hms, _⟩ := fp_facts genome codons F hWF s hs
  by_cases h0 : r.tstop = 0
  · have h0s : s.tstop = 0 := by
      rw [← fp_empty_iff genome codons F hWF s hs, ← hfp,
        fp_empty_iff genome codons F hWF r hr]
      exact h0
    rw [hgr, hgs, h0, h0s]
    rfl
  · have h0s : ¬ s.tstop = 0 := by
      rw [← fp_empty_iff genome codons F hWF s hs, ← hfp,
        fp_empty_iff genome codons F hWF r hr]
      exact h0
    rcases hcr with hh | ⟨h1r, h2r⟩
    · exact absurd hh h0
    rcases hcs with hh | ⟨h1s, h2s⟩
    · exact absurd hh h0s
    have hslice : (tr.drop r.tcoord).take (r.tstop - r.tcoord) =
        (ts.drop s.tcoord).take (s.tstop - s.tcoord) := by
      rw [← hmr, ← hms, hfp]
    have hlenr : ((tr.drop r.tcoord).take (r.tstop - r.tcoord)).length =
        r.tstop - r.tcoord := by
      rw [List.length_take, List.length_drop]
      omega
    have hlens : ((ts.drop s.tcoord).take (s.tstop - s.tcoord)).length =
        s.tstop - s.tcoord := by
      rw [List.length_take, List.length_drop]
      omega
    have hlen : r.tstop - r.tcoord = s.tstop - s.tcoord := by
      rw [← hlenr, ← hlens, hslice]
    have hlast : tr.getD (r.tstop - 1) 0 = ts.getD (s.tstop - 1) 0 := by
      rw [← slice_getD_last tr r.tcoord r.tstop h1r h2r,
        ← slice_getD_last ts s.tcoord s.tstop h1s h2s, hslice, hlen]
    have hrpos : r.tstop > 0 := by omega
    have hspos : s.tstop > 0 := by omega
    rw [hgr, hgs, gstopOf, gstopOf, if_pos hrpos, if_pos hspos, hlast]

theorem gstopOf_zero (st : Char) (pos : List Nat) : gstopOf st pos 0 = 0 := rfl

theorem namedTable_mem_elim (genome : String → Nat → Char) (codons : List String)
    (F : FamilyInput) (r : OrfRow) (hr : r ∈ namedTable genome codons F) :
    ∃ r0 ∈ preTable genome codons F,
      r = (if r0.tstop == 0 then
            { r0 with orfname := nameOf F (preTable genome codons F) r0,
                      orftype := "nonstop" }
           else { r0 with orfname := nameOf F (preTable genome codons F) r0 }) := by
  unfold namedTable nonstopStep nameRows at hr
  rw [List.map_map] at hr
  obtain ⟨r0, hr0, rfl⟩ := List.mem_map.mp hr
  exact ⟨r0, hr0, rfl⟩

theorem namedTable_fields (genome : String → Nat → Char) (codons : List String)
    (F : FamilyInput) (r : OrfRow) (hr : r ∈ namedTable genome codons F) :
    ∃ r0 ∈ preTable genome codons F,
      r.orfname = nameOf F (preTable genome codons F) r0 ∧
      r.tid = r0.tid ∧ r.tcoord = r0.tcoord ∧ r.tstop = r0.tstop ∧
      r.gcoord = r0.gcoord ∧ r.gstop = r0.gstop ∧ r.AAlen = r0.AAlen ∧
      r.annot_start = false ∧ r.annot_stop = false ∧
      r.orftype = (if r0.tstop = 0 then "nonstop" else "new") ∧
      fpOf F r = fpOf F r0 := by
  obtain ⟨r0, hr0, rfl⟩ := namedTable_mem_elim genome codons F r hr
  obtain ⟨T, hT, hrT⟩ := preTable_mem_elim genome codons F r0 hr0
  obtain ⟨_, _, _, _, hnew, hfas, hfast, _⟩ :=
    transcriptRows_mem_elim genome codons F T r0 hrT
  refine ⟨r0, hr0, ?_⟩
  split
  next h0 =>
    have h0b : r0.tstop = 0 := by simpa using h0
    refine ⟨rfl, rfl, rfl, rfl, rfl, rfl, rfl, hfas, hfast, ?_, rfl⟩
    rw [if_pos h0b]
  next h0 =>
    have h0b : ¬ r0.tstop = 0 := by simpa using h0
    refine ⟨rfl, rfl, rfl, rfl, rfl, rfl, rfl, hfas, hfast, ?_, rfl⟩
    rw [if_neg h0b]
    exact hnew

/-- The named, nonstop-marked table satisfies all cascade invariants under
well-formedness. -/
theorem namedTable_cascadeInv (genome : String → Nat → Char)
    (codons : List String) (F : FamilyInput) (hWF : WF F) :
    CascadeInv (namedTable genome codons F) := by
  refine ⟨⟨?_, ?_⟩, ?_, ?_, ?_⟩
  · intro r hr s hs hname
    obtain ⟨r0, hr0, hrn, _, _, hrts, _, _, _, hras, hrast, hrot, hrfp⟩ :=
      namedTable_fields genome codons F r hr
    obtain ⟨s0, hs0, hsn, _, _, hsts, _, _, _, hsas, hsast, hsot, hsfp⟩ :=
      namedTable_fields genome codons F s hs
    rw [hrn, hsn] at hname
    have hiff := (nameOf_eq_iff F _ r0 s0 hr0 hs0).mp hname
    have htsiff : r0.tstop = 0 ↔ s0.tstop = 0 := by
      rw [← fp_empty_iff genome codons F hWF r0 hr0,
        ← fp_empty_iff genome codons F hWF s0 hs0, hiff.2.2]
    refine ⟨?_, ?_, ?_⟩
    · rw [hrot, hsot]
      by_cases h0 : r0.tstop = 0
      · rw [if_pos h0, if_pos (htsiff.mp h0)]
      · rw [if_neg h0, if_neg (fun hh => h0 (htsiff.mpr hh))]
    · rw [hras, hsas]
    · rw [hrast, hsast]
  · intro r hr s hs hname
    obtain ⟨r0, hr0, hrn, _, _, hrts, hrg, hrgs, _, _, _, _, hrfp⟩ :=
      namedTable_fields genome codons F r hr
    obtain ⟨s0, hs0, hsn, _, _, hsts, hsg, hsgs, _, _, _, _, hsfp⟩ :=
      namedTable_fields genome codons F s hs
    rw [hrn, hsn] at hname
    have hiff := (nameOf_eq_iff F _ r0 s0 hr0 hs0).mp hname
    have htsiff : r0.tstop = 0 ↔ s0.tstop = 0 := by
      rw [← fp_empty_iff genome codons F hWF r0 hr0,
        ← fp_empty_iff genome codons F hWF s0 hs0, hiff.2.2]
    refine ⟨?_, ?_, ?_⟩
    · rw [hrg, hsg]; exact hiff.1
    · rw [hrgs, hsgs]
      exact gstop_eq_of_fp_eq genome codons F hWF r0 s0 hr0 hs0 hiff.2.2
    · rw [hrts, hsts]; exact htsiff
  · intro r hr h0
    obtain ⟨r0, _, _, _, _, hrts, _, _, _, _, _, hrot, _⟩ :=
      namedTable_fields genome codons F r hr
    rw [hrot, if_pos (by rw [← hrts]; exact h0)]
  · intro r hr hns
    obtain ⟨r0, _, _, _, _, hrts, _, _, _, _, _, hrot, _⟩ :=
      namedTable_fields genome codons F r hr
    rw [hrts]
    by_cases h0 : r0.tstop = 0
    · exact h0
    · exfalso
      rw [hrot, if_neg h0] at hns
      exact absurd hns (by decide)
  · intro r hr h0
    obtain ⟨r0, hr0, _, _, _, hrts, _, hrgs, _, _, _, _, _⟩ :=
      namedTable_fields genome codons F r hr
    obtain ⟨tpos, _, _, _, hg, _, _⟩ := fp_facts genome codons F hWF r0 hr0
    rw [hrgs, hg, ← hrts, h0]
    exact gstopOf_zero _ _

/-! ## Cascade preservation of the uniformity invariants -/

theorem relabelF_uniInv (v : String → Option String) (t : List OrfRow)
    (h : UniInv t) : UniInv (relabelF v t) := by
  obtain ⟨hn, hs⟩ := h
  constructor
  · intro r hr s hsm hname
    obtain ⟨r0, hr0, rfl⟩ := List.mem_map.mp hr
    obtain ⟨s0, hs0, rfl⟩ := List.mem_map.mp hsm
    have hname0 : r0.orfname = s0.orfname := hname
    obtain ⟨hty, hfa, hfs⟩ := hn r0 hr0 s0 hs0 hname0
    refine ⟨?_, hfa, hfs⟩
    show (v r0.orfname).getD r0.orftype = (v s0.orfname).getD s0.orftype
    rw [hname0, hty]
  · intro r hr s hsm hname
    obtain ⟨r0, hr0, rfl⟩ := List.mem_map.mp hr
    obtain ⟨s0, hs0, rfl⟩ := List.mem_map.mp hsm
    exact hs r0 hr0 s0 hs0 hname

theorem condRelabel_uniInv (P : OrfRow → Bool) (label : String) (t : List OrfRow)
    (hP : ∀ r s : OrfRow, r.annot_start = s.annot_start →
      r.annot_stop = s.annot_stop → r.orftype = s.orftype → P r = P s)
    (h : UniInv t) : UniInv (condRelabel P label t) := by
  obtain ⟨hn, hs⟩ := h
  constructor
  · intro r hr s hsm hname
    obtain ⟨r0, hr0, rfl⟩ := List.mem_map.mp hr
    obtain ⟨s0, hs0, rfl⟩ := List.mem_map.mp hsm
    have hname0 : r0.orfname = s0.orfname := by
      by_cases hp : P r0 = true <;> by_cases hq : P s0 = true <;>
        simpa [hp, hq] using hname
    obtain ⟨hty, hfa, hfs⟩ := hn r0 hr0 s0 hs0 hname0
    have hPeq : P r0 = P s0 := hP r0 s0 hfa hfs hty
    by_cases hp : P r0 = true
    · have hq : P s0 = true := hPeq ▸ hp
      refine ⟨?_, ?_, ?_⟩
      · rw [if_pos hp, if_pos hq]
      · rw [if_pos hp, if_pos hq]; exact hfa
      · rw [if_pos hp, if_pos hq]; exact hfs
    · have hq : ¬ P s0 = true := hPeq ▸ hp
      refine ⟨?_, ?_, ?_⟩
      · rw [if_neg hp, if_neg hq]; exact hty
      · rw [if_neg hp, if_neg hq]; exact hfa
      · rw [if_neg hp, if_neg hq]; exact hfs
  · intro r hr s hsm hname
    obtain ⟨r0, hr0, rfl⟩ := List.mem_map.mp hr
    obtain ⟨s0, hs0, rfl⟩ := List.mem_map.mp hsm
    have hname0 : r0.orfname = s0.orfname := by
      by_cases hp : P r0 = true <;> by_cases hq : P s0 = true <;>
        simpa [hp, hq] using hname
    have hres := hs r0 hr0 s0 hs0 hname0
    by_cases hp : P r0 = true <;> by_cases hq : P s0 = true <;>
      refine ⟨?_, ?_, ?_⟩ <;>
        simp only [if_pos, if_neg, hp, hq, Bool.not_eq_true, if_false, if_true] <;>
          first
            | exact hres.1
            | exact hres.2.1
            | exact hres.2.2

theorem setAnnotFlags_uniInv (cds : List CdsInfo) (t : List OrfRow)
    (h : UniInv t) : UniInv (setAnnotFlags cds t) := by
  obtain ⟨hn, hs⟩ := h
  constructor
  · intro r hr s hsm hname
    obtain ⟨r0, hr0, rfl⟩ := List.mem_map.mp hr
    obtain ⟨s0, hs0, rfl⟩ := List.mem_map.mp hsm
    have hname0 : r0.orfname = s0.orfname := hname
    obtain ⟨hty, _, _⟩ := hn r0 hr0 s0 hs0 hname0
    obtain ⟨hg, hgs, _⟩ := hs r0 hr0 s0 hs0 hname0
    exact ⟨hty, by show cds.any _ = cds.any _; rw [hg],
      by show cds.any _ = cds.any _; rw [hgs]⟩
  · intro r hr s hsm hname
    obtain ⟨r0, hr0, rfl⟩ := List.mem_map.mp hr
    obtain ⟨s0, hs0, rfl⟩ := List.mem_map.mp hsm
    exact hs r0 hr0 s0 hs0 hname

theorem newtype_map_uniInv (t : List OrfRow) (h : UniInv t) :
    UniInv (t.map (fun r => { r with orftype := "new" })) := by
  obtain ⟨hn, hs⟩ := h
  constructor
  · intro r hr s hsm hname
    obtain ⟨r0, hr0, rfl⟩ := List.mem_map.mp hr
    obtain ⟨s0, hs0, rfl⟩ := List.mem_map.mp hsm
    obtain ⟨_, hfa, hfs⟩ := hn r0 hr0 s0 hs0 hname
    exact ⟨rfl, hfa, hfs⟩
  · intro r hr s hsm hname
    obtain ⟨r0, hr0, rfl⟩ := List.mem_map.mp hr
    obtain ⟨s0, hs0, rfl⟩ := List.mem_map.mp hsm
    exact hs r0 hr0 s0 hs0 hname

theorem ite_uniInv (b : Bool) (step : List OrfRow → List OrfRow)
    (t : List OrfRow) (hstep : UniInv t → UniInv (step t)) (h : UniInv t) :
    UniInv (if b then step t else t) := by
  cases b
  · rw [if_neg (by simp)]; exact h
  · rw [if_pos rfl]; exact hstep h

theorem classifyCascade_uniInv (F : FamilyInput) (extracds : Bool)
    (cds : List CdsInfo) (aap : List Nat) (t0 t : List OrfRow)
    (h : UniInv t) : UniInv (classifyCascade F extracds cds aap t0 t) := by
  unfold classifyCascade
  apply relabelF_uniInv
  apply relabelF_uniInv
  apply relabelF_uniInv
  apply relabelF_uniInv
  apply ite_uniInv _ _ _ (fun hh => relabelF_uniInv _ _ hh)
  apply relabelF_uniInv
  apply ite_uniInv _ _ _ (fun hh => relabelF_uniInv _ _ hh)
  apply relabelF_uniInv
  apply ite_uniInv _ _ _ (fun hh => relabelF_uniInv _ _ hh)
  apply relabelF_uniInv
  apply relabelF_uniInv
  apply condRelabel_uniInv _ _ _ (fun r s h1 h2 h3 => by simp only [h1, h2, h3])
  apply relabelF_uniInv
  apply ite_uniInv _ _ _ (fun hh => relabelF_uniInv _ _ hh)
  apply relabelF_uniInv
  apply condRelabel_uniInv _ _ _ (fun r s h1 h2 h3 => by simp only [h1, h2, h3])
  apply condRelabel_uniInv _ _ _ (fun r s h1 h2 h3 => by simp only [h1, h2, h3])
  apply relabelF_uniInv
  apply relabelF_uniInv
  apply setAnnotFlags_uniInv
  exact h

theorem identifyCore_uniInv (sources : List (List (String × List AnnotTranscript)))
    (extracds : Bool) (F : FamilyInput) (t : List OrfRow) (h : UniInv t) :
    UniInv (identifyCore sources extracds F t) := by
  unfold identifyCore
  split
  · split
    · exact h
    · exact classifyCascade_uniInv _ _ _ _ _ _ h
  · exact newtype_map_uniInv t h

/-- C10: in every table returned by the per-family identification step (on
well-formed family input), all rows sharing an `orfname` carry identical
`orftype`, `annot_start` and `annot_stop`. -/
theorem C10_thm (genome : String → Nat → Char) (codons : List String)
    (sources : List (List (String × List AnnotTranscript))) (extracds : Bool)
    (F : FamilyInput) (tbl : List OrfRow) (hWF : WF F)
    (hid : identifyTfamOrfs genome codons sources extracds F = some tbl) :
    ∀ r ∈ tbl, ∀ s ∈ tbl, r.orfname = s.orfname →
      r.orftype = s.orftype ∧ r.annot_start = s.annot_start ∧
      r.annot_stop = s.annot_stop := by
  obtain rfl := identify_some_elim genome codons sources extracds F tbl hid
  have hbase := namedTable_cascadeInv genome codons F hWF
  exact (identifyCore_uniInv sources extracds F _ hbase.1).1

/-- C10 witness: the two rows of the concrete family `famC3` share an
`orfname`, and the uniformity theorem yields equal classification state for
them. -/
theorem C10_witness :
    (((identifyTfamOrfs genomeC3 ["ATG"] [] false famC3).getD []).getD 0
        dummyRow).orftype =
      (((identifyTfamOrfs genomeC3 ["ATG"] [] false famC3).getD []).getD 1
        dummyRow).orftype ∧
    (((identifyTfamOrfs genomeC3 ["ATG"] [] false famC3).getD []).getD 0
        dummyRow).annot_start =
      (((identifyTfamOrfs genomeC3 ["ATG"] [] false famC3).getD []).getD 1
        dummyRow).annot_start ∧
    (((identifyTfamOrfs genomeC3 ["ATG"] [] false famC3).getD []).getD 0
        dummyRow).annot_stop =
      (((identifyTfamOrfs genomeC3 ["ATG"] [] false famC3).getD []).getD 1
        dummyRow).annot_stop :=
  C10_thm genomeC3 ["ATG"] [] false famC3 _
    ⟨by decide, by decide, by decide⟩ rfl _ (by decide) _ (by decide) (by decide)

/-! ## Provenance through the cascade -/

theorem SameCore.refl (r : OrfRow) : SameCore r r :=
  ⟨rfl, rfl, rfl, rfl, rfl, rfl, rfl, rfl⟩

theorem SameCore.trans {a b c : OrfRow} (h1 : SameCore a b) (h2 : SameCore b c) :
    SameCore a c :=
  ⟨h1.1.trans h2.1, h1.2.1.trans h2.2.1, h1.2.2.1.trans h2.2.2.1,
   h1.2.2.2.1.trans h2.2.2.2.1, h1.2.2.2.2.1.trans h2.2.2.2.2.1,
   h1.2.2.2.2.2.1.trans h2.2.2.2.2.2.1,
   h1.2.2.2.2.2.2.1.trans h2.2.2.2.2.2.2.1,
   h1.2.2.2.2.2.2.2.trans h2.2.2.2.2.2.2.2⟩

theorem relabelF_core_elim (v : String → Option String) (t : List OrfRow)
    (r2 : OrfRow) (h : r2 ∈ relabelF v t) : ∃ r ∈ t, SameCore r r2 := by
  obtain ⟨r0, hr0, rfl⟩ := List.mem_map.mp h
  exact ⟨r0, hr0, ⟨rfl, rfl, rfl, rfl, rfl, rfl, rfl, rfl⟩⟩

theorem condRelabel_core_elim (P : OrfRow → Bool) (label : String)
    (t : List OrfRow) (r2 : OrfRow) (h : r2 ∈ condRelabel P label t) :
    ∃ r ∈ t, SameCore r r2 := by
  obtain ⟨r0, hr0, rfl⟩ := List.mem_map.mp h
  refine ⟨r0, hr0, ?_⟩
  by_cases hp : P r0 = true
  · rw [if_pos hp]
    exact ⟨rfl, rfl, rfl, rfl, rfl, rfl, rfl, rfl⟩
  · rw [if_neg hp]
    exact SameCore.refl r0

theorem setAnnotFlags_core_elim (cds : List CdsInfo) (t : List OrfRow)
    (r2 : OrfRow) (h : r2 ∈ setAnnotFlags cds t) : ∃ r ∈ t, SameCore r r2 := by
  obtain ⟨r0, hr0, rfl⟩ := List.mem_map.mp h
  exact ⟨r0, hr0, ⟨rfl, rfl, rfl, rfl, rfl, rfl, rfl, rfl⟩⟩

theorem ite_core_elim (b : Bool) (step : List OrfRow → List OrfRow)
    (t : List OrfRow)
    (hstep : ∀ r2 ∈ step t, ∃ r ∈ t, SameCore r r2)
    (r2 : OrfRow) (h : r2 ∈ (if b then step t else t)) :
    ∃ r ∈ t, SameCore r r2 := by
  cases b
  · rw [if_neg (by simp)] at h
    exact ⟨r2, h, SameCore.refl r2⟩
  · rw [if_pos rfl] at h
    exact hstep r2 h

theorem classifyCascade_core_elim (F : FamilyInput) (extracds : Bool)
    (cds : List CdsInfo) (aap : List Nat) (t0 t : List OrfRow) (r2 : OrfRow)
    (h : r2 ∈ classifyCascade F extracds cds aap t0 t) :
    ∃ r ∈ t, SameCore r r2 := by
  unfold classifyCascade at h
  obtain ⟨x1, h1, c1⟩ := relabelF_core_elim _ _ _ h
  obtain ⟨x2, h2, c2⟩ := relabelF_core_elim _ _ _ h1
  obtain ⟨x3, h3, c3⟩ := relabelF_core_elim _ _ _ h2
  obtain ⟨x4, h4, c4⟩ := relabelF_core_elim _ _ _ h3
  obtain ⟨x5, h5, c5⟩ := ite_core_elim _ _ _
    (fun y hy => relabelF_core_elim _ _ _ hy) _ h4
  obtain ⟨x6, h6, c6⟩ := relabelF_core_elim _ _ _ h5
  obtain ⟨x7, h7, c7⟩ := ite_core_elim _ _ _
    (fun y hy => relabelF_core_elim _ _ _ hy) _ h6
  obtain ⟨x8, h8, c8⟩ := relabelF_core_elim _ _ _ h7
  obtain ⟨x9, h9, c9⟩ := ite_core_elim _ _ _
    (fun y hy => relabelF_core_elim _ _ _ hy) _ h8
  obtain ⟨x10, h10, c10⟩ := relabelF_core_elim _ _ _ h9
  obtain ⟨x11, h11, c11⟩ := relabelF_core_elim _ _ _ h10
  obtain ⟨x12, h12, c12⟩ := condRelabel_core_elim _ _ _ _ h11
  obtain ⟨x13, h13, c13⟩ := relabelF_core_elim _ _ _ h12
  obtain ⟨x14, h14, c14⟩ := ite_core_elim _ _ _
    (fun y hy => relabelF_core_elim _ _ _ hy) _ h13
  obtain ⟨x15, h15, c15⟩ := relabelF_core_elim _ _ _ h14
  obtain ⟨x16, h16, c16⟩ := condRelabel_core_elim _ _ _ _ h15
  obtain ⟨x17, h17, c17⟩ := condRelabel_core_elim _ _ _ _ h16
  obtain ⟨x18, h18, c18⟩ := relabelF_core_elim _ _ _ h17
  obtain ⟨x19, h19, c19⟩ := relabelF_core_elim _ _ _ h18
  obtain ⟨x20, h20, c20⟩ := setAnnotFlags_core_elim _ _ _ h19
  exact ⟨x20, h20, (((((((((((((((((((c20.trans c19).trans c18).trans
    c17).trans c16).trans c15).trans c14).trans c13).trans c12).trans
    c11).trans c10).trans c9).trans c8).trans c7).trans c6).trans c5).trans
    c4).trans c3).trans c2).trans c1)⟩

theorem identifyCore_core_elim (sources : List (List (String × List AnnotTranscript)))
    (extracds : Bool) (F : FamilyInput) (t : List OrfRow) (r2 : OrfRow)
    (h : r2 ∈ identifyCore sources extracds F t) : ∃ r ∈ t, SameCore r r2 := by
  unfold identifyCore at h
  split at h
  · split at h
    · exact ⟨r2, h, SameCore.refl r2⟩
    · exact classifyCascade_core_elim _ _ _ _ _ _ _ h
  · obtain ⟨r0, hr0, rfl⟩ := List.mem_map.mp h
    exact ⟨r0, hr0, ⟨rfl, rfl, rfl, rfl, rfl, rfl, rfl, rfl⟩⟩

/-- C3 (amended): in every returned table, two rows carry the same `orfname`
exactly when they agree on the grouping key `(gcoord, AAlen)` and on the
footprint slice the naming loop computes (which is empty for stopless
candidates). -/
theorem C3_amended_thm (genome : String → Nat → Char) (codons : List String)
    (sources : List (List (String × List AnnotTranscript))) (extracds : Bool)
    (F : FamilyInput) (tbl : List OrfRow)
    (hid : identifyTfamOrfs genome codons sources extracds F = some tbl)
    (r s : OrfRow) (hr : r ∈ tbl) (hs : s ∈ tbl) :
    r.orfname = s.orfname ↔
      (r.gcoord = s.gcoord ∧ r.AAlen = s.AAlen ∧ fpOf F r = fpOf F s) := by
  obtain rfl := identify_some_elim genome codons sources extracds F tbl hid
  obtain ⟨r1, hr1, hcr⟩ := identifyCore_core_elim sources extracds F _ r hr
  obtain ⟨s1, hs1, hcs⟩ := identifyCore_core_elim sources extracds F _ s hs
  obtain ⟨r0, hr0, hrn, hrtid, hrtc, hrts, hrg, _, hrA, _, _, _, hrfp⟩ :=
    namedTable_fields genome codons F r1 hr1
  obtain ⟨s0, hs0, hsn, hstid, hstc, hsts, hsg, _, hsA, _, _, _, hsfp⟩ :=
    namedTable_fields genome codons F s1 hs1
  have e1 : r.orfname = nameOf F (preTable genome codons F) r0 := by
    rw [← hcr.2.2.2.2.2.2.2, hrn]
  have e2 : s.orfname = nameOf F (preTable genome codons F) s0 := by
    rw [← hcs.2.2.2.2.2.2.2, hsn]
  have e3 : r.gcoord = r0.gcoord := by rw [← hcr.2.2.2.2.1, hrg]
  have e4 : s.gcoord = s0.gcoord := by rw [← hcs.2.2.2.2.1, hsg]
  have e5 : r.AAlen = r0.AAlen := by rw [← hcr.2.2.2.2.2.2.1, hrA]
  have e6 : s.AAlen = s0.AAlen := by rw [← hcs.2.2.2.2.2.2.1, hsA]
  have e7 : fpOf F r = fpOf F r0 := by
    have h1 : fpOf F r = fpOf F r1 := by
      rw [fpOf, fpOf, hcr.2.1, hcr.2.2.1, hcr.2.2.2.1]
    rw [h1, hrfp]
  have e8 : fpOf F s = fpOf F s0 := by
    have h1 : fpOf F s = fpOf F s1 := by
      rw [fpOf, fpOf, hcs.2.1, hcs.2.2.1, hcs.2.2.2.1]
    rw [h1, hsfp]
  rw [e1, e2, e3, e4, e5, e6, e7, e8]
  exact nameOf_eq_iff F _ r0 s0 hr0 hs0

/-- C3 witness: the amended iff instantiated on two concrete rows of the
`famC3` table (the two stopless ORFs that share a name). -/
theorem C3_witness :
    (((identifyTfamOrfs genomeC3 ["ATG"] [] false famC3).getD []).getD 0
        dummyRow).orfname =
      (((identifyTfamOrfs genomeC3 ["ATG"] [] false famC3).getD []).getD 1
        dummyRow).orfname ↔
    ((((identifyTfamOrfs genomeC3 ["ATG"] [] false famC3).getD []).getD 0
        dummyRow).gcoord =
      (((identifyTfamOrfs genomeC3 ["ATG"] [] false famC3).getD []).getD 1
        dummyRow).gcoord ∧
     (((identifyTfamOrfs genomeC3 ["ATG"] [] false famC3).getD []).getD 0
        dummyRow).AAlen =
      (((identifyTfamOrfs genomeC3 ["ATG"] [] false famC3).getD []).getD 1
        dummyRow).AAlen ∧
     fpOf famC3 (((identifyTfamOrfs genomeC3 ["ATG"] [] false famC3).getD []).getD 0
        dummyRow) =
      fpOf famC3 (((identifyTfamOrfs genomeC3 ["ATG"] [] false famC3).getD []).getD 1
        dummyRow)) :=
  C3_amended_thm genomeC3 ["ATG"] [] false famC3 _ rfl _ _ (by decide) (by decide)

/-! ## Preservation of the nonstop labels through the cascade -/

theorem relabelF_nonstopInv (v : String → Option String) (t : List OrfRow)
    (hinv : NonstopInv t)
    (hns : ∀ r ∈ t, r.orftype = "nonstop" → v r.orfname = none)
    (hlab : ∀ nm ty, v nm = some ty → ty ≠ "nonstop") :
    NonstopInv (relabelF v t) := by
  obtain ⟨ha, hb, hc⟩ := hinv
  refine ⟨?_, ?_, ?_⟩
  · intro r hr h0
    obtain ⟨r0, hr0, rfl⟩ := List.mem_map.mp hr
    have h00 : r0.tstop = 0 := h0
    have hn0 := ha r0 hr0 h00
    show (v r0.orfname).getD r0.orftype = "nonstop"
    rw [hns r0 hr0 hn0, Option.getD_none]
    exact hn0
  · intro r hr hty
    obtain ⟨r0, hr0, rfl⟩ := List.mem_map.mp hr
    show r0.tstop = 0
    have hty2 : (v r0.orfname).getD r0.orftype = "nonstop" := hty
    cases hv : v r0.orfname with
    | some ty =>
      rw [hv, Option.getD_some] at hty2
      exact absurd hty2 (hlab _ _ hv)
    | none =>
      rw [hv, Option.getD_none] at hty2
      exact hb r0 hr0 hty2
  · intro r hr h0
    obtain ⟨r0, hr0, rfl⟩ := List.mem_map.mp hr
    exact hc r0 hr0 h0

theorem relabelF_names_cascadeInv (names : List String) (lab : String → String)
    (t : List OrfRow) (hinv : CascadeInv t)
    (hnames : ∀ nm ∈ names, ∃ x ∈ t, x.orfname = nm ∧ x.orftype = "new")
    (hlab : ∀ nm, lab nm ≠ "nonstop") :
    CascadeInv (relabelF (fun nm =>
      if names.contains nm then some (lab nm) else none) t) := by
  refine ⟨relabelF_uniInv _ t hinv.1, relabelF_nonstopInv _ t hinv.2 ?_ ?_⟩
  · intro r hr hns
    show (if names.contains r.orfname then some (lab r.orfname) else none) = none
    have hc : ¬ names.contains r.orfname = true := by
      intro hc2
      have hmem : r.orfname ∈ names := by simpa using hc2
      obtain ⟨x, hx, hxn, hxty⟩ := hnames _ hmem
      have hxeq := (hinv.1.1 x hx r hr hxn).1
      rw [hxty, hns] at hxeq
      exact absurd hxeq (by decide)
    rw [if_neg hc]
  · intro nm ty h
    have h2 : (if names.contains nm then some (lab nm) else none) = some ty := h
    by_cases hc : names.contains nm = true
    · rw [if_pos hc] at h2
      injection h2 with h2
      rw [← h2]
      exact hlab nm
    · rw [if_neg hc] at h2
      cases h2

theorem mem_reps_new (t : List OrfRow) (pred : OrfRow → Bool) (nm : String)
    (h : nm ∈ ((dedupByKey (fun r => r.orfname)
        (t.filter (fun r => r.orftype == "new"))).filter pred).map
        (fun r => r.orfname)) :
    ∃ x ∈ t, x.orfname = nm ∧ x.orftype = "new" := by
  obtain ⟨x, hx, rfl⟩ := List.mem_map.mp h
  have hx2 := (List.mem_filter.mp hx).1
  have hx3 := mem_of_mem_dedupByKey _ _ _ hx2
  obtain ⟨hxt, hxp⟩ := List.mem_filter.mp hx3
  exact ⟨x, hxt, rfl, by simpa using hxp⟩

theorem sameTransStep_cascadeInv (cond : OrfRow → OrfRow → Bool) (label : String)
    (t : List OrfRow) (hinv : CascadeInv t) (hlab : label ≠ "nonstop") :
    CascadeInv (sameTransStep cond label t) := by
  refine relabelF_names_cascadeInv _ _ t hinv ?_ (fun _ => hlab)
  intro nm hnm
  obtain ⟨x, hx, rfl⟩ := List.mem_map.mp hnm
  obtain ⟨hxt, hpred⟩ := List.mem_filter.mp hx
  simp only [Bool.and_eq_true, beq_iff_eq] at hpred
  exact ⟨x, hxt, rfl, hpred.1⟩

theorem xiso2_cascadeInv (cds : List CdsInfo) (t : List OrfRow)
    (hinv : CascadeInv t) : CascadeInv (xiso2Step cds t) := by
  refine relabelF_names_cascadeInv _ _ t hinv ?_ (fun _ => by decide)
  intro nm hnm
  obtain ⟨x, hx, rfl⟩ := List.mem_map.mp hnm
  obtain ⟨hxt, hpred⟩ := List.mem_filter.mp hx
  simp only [Bool.and_eq_true, beq_iff_eq] at hpred
  exact ⟨x, hxt, rfl, hpred.1⟩

theorem truncUnfound_cascadeInv (F : FamilyInput) (t0 : List OrfRow)
    (cds : List CdsInfo) (strand : Char) (t : List OrfRow)
    (hinv : CascadeInv t) : CascadeInv (truncUnfoundStep F t0 cds strand t) := by
  refine relabelF_names_cascadeInv _ _ t hinv ?_ (fun _ => by decide)
  intro nm hnm
  exact mem_reps_new t _ nm hnm

theorem nciso_cascadeInv (F : FamilyInput) (t0 : List OrfRow)
    (cds : List CdsInfo) (strand : Char) (t : List OrfRow)
    (hinv : CascadeInv t) : CascadeInv (ncisoStep F t0 cds strand t) := by
  refine relabelF_names_cascadeInv _ _ t hinv ?_ (fun _ => by decide)
  intro nm hnm
  exact mem_reps_new t _ nm hnm

theorem internalUnfound_cascadeInv (F : FamilyInput) (t0 : List OrfRow)
    (cds : List CdsInfo) (strand : Char) (t : List OrfRow)
    (hinv : CascadeInv t) : CascadeInv (internalUnfoundStep F t0 cds strand t) := by
  refine relabelF_names_cascadeInv _ _ t hinv ?_ (fun _ => by decide)
  intro nm hnm
  exact mem_reps_new t _ nm hnm

theorem stopOverUnfound_cascadeInv (F : FamilyInput) (t0 : List OrfRow)
    (cds : List CdsInfo) (strand : Char) (t : List OrfRow)
    (hinv : CascadeInv t) : CascadeInv (stopOverUnfoundStep F t0 cds strand t) := by
  refine relabelF_names_cascadeInv _ _ t hinv ?_ (fun _ => by decide)
  intro nm hnm
  exact mem_reps_new t _ nm hnm

theorem startOverUnfound_cascadeInv (F : FamilyInput) (t0 : List OrfRow)
    (cds : List CdsInfo) (strand : Char) (t : List OrfRow)
    (hinv : CascadeInv t) : CascadeInv (startOverUnfoundStep F t0 cds strand t) := by
  refine relabelF_names_cascadeInv _ _ t hinv ?_ (fun _ => by decide)
  intro nm hnm
  exact mem_reps_new t _ nm hnm

theorem newIsoGiso_cascadeInv (F : FamilyInput) (t0 : List OrfRow)
    (aap : List Nat) (t : List OrfRow) (hinv : CascadeInv t) :
    CascadeInv (newIsoGisoStep F t0 aap t) := by
  refine relabelF_names_cascadeInv _ _ t hinv ?_ ?_
  · intro nm hnm
    have hnm2 := mem_of_mem_dedupByKey id _ _ hnm
    obtain ⟨x, hx, rfl⟩ := List.mem_map.mp hnm2
    obtain ⟨hxt, hpred⟩ := List.mem_filter.mp hx
    exact ⟨x, hxt, rfl, by simpa using hpred⟩
  · intro nm
    split <;> decide

theorem annotatedXiso_cascadeInv (F : FamilyInput) (t0 : List OrfRow)
    (cds : List CdsInfo) (t : List OrfRow) (hinv : CascadeInv t)
    (hcz : ∀ c ∈ cds, c.gstop ≠ 0) :
    CascadeInv (annotatedXisoStep F t0 cds t) := by
  refine ⟨relabelF_uniInv _ t hinv.1, relabelF_nonstopInv _ t hinv.2 ?_ ?_⟩
  · intro r hr hns
    unfold annotatedXisoName
    have hfind : ((dedupByKey (fun r => r.orfname) t).filter
        (fun r => cds.any (fun c => annotKeyMatch c r))).find?
        (fun x => x.orfname == r.orfname) = none := by
      rw [List.find?_eq_none]
      intro m hm hbeq
      have hmn : m.orfname = r.orfname := by simpa using hbeq
      obtain ⟨hmd, hmpred⟩ := List.mem_filter.mp hm
      have hmt := mem_of_mem_dedupByKey _ _ _ hmd
      have hmty := (hinv.1.1 m hmt r hr hmn).1
      rw [hns] at hmty
      have hm0 := hinv.2.2.1 m hmt hmty
      have hmg := hinv.2.2.2 m hmt hm0
      obtain ⟨c, hcm, hck⟩ := List.any_eq_true.mp hmpred
      have hcg : c.gstop = m.gstop := by
        have h1 := hck
        simp only [annotKeyMatch, Bool.and_eq_true, beq_iff_eq] at h1
        exact h1.1.2
      exact hcz c hcm (hcg.trans hmg)
    rw [hfind]
  · intro nm ty h
    have h2 : annotatedXisoName F t0 cds t nm = some ty := h
    unfold annotatedXisoName at h2
    split at h2
    · split at h2 <;> (injection h2 with h2; rw [← h2]; decide)
    · cases h2

theorem condRelabel_cascadeInv (P : OrfRow → Bool) (label : String)
    (t : List OrfRow)
    (hP : ∀ r s : OrfRow, r.annot_start = s.annot_start →
      r.annot_stop = s.annot_stop → r.orftype = s.orftype → P r = P s)
    (hnsP : ∀ r : OrfRow, r.orftype = "nonstop" → P r = false)
    (hlab : label ≠ "nonstop") (hinv : CascadeInv t) :
    CascadeInv (condRelabel P label t) := by
  refine ⟨condRelabel_uniInv P label t hP hinv.1, ?_, ?_, ?_⟩
  · intro r hr h0
    obtain ⟨r0, hr0, rfl⟩ := List.mem_map.mp hr
    by_cases hp : P r0 = true
    · rw [if_pos hp] at h0 ⊢
      have h00 : r0.tstop = 0 := h0
      have hns0 := hinv.2.1 r0 hr0 h00
      rw [hnsP r0 hns0] at hp
      cases hp
    · rw [if_neg hp] at h0 ⊢
      exact hinv.2.1 r0 hr0 h0
  · intro r hr hty
    obtain ⟨r0, hr0, rfl⟩ := List.mem_map.mp hr
    by_cases hp : P r0 = true
    · rw [if_pos hp] at hty ⊢
      exact absurd hty hlab
    · rw [if_neg hp] at hty ⊢
      exact hinv.2.2.1 r0 hr0 hty
  · intro r hr h0
    obtain ⟨r0, hr0, rfl⟩ := List.mem_map.mp hr
    by_cases hp : P r0 = true
    · rw [if_pos hp] at h0 ⊢
      exact hinv.2.2.2 r0 hr0 h0
    · rw [if_neg hp] at h0 ⊢
      exact hinv.2.2.2 r0 hr0 h0

theorem setAnnotFlags_cascadeInv (cds : List CdsInfo) (t : List OrfRow)
    (hinv : CascadeInv t) : CascadeInv (setAnnotFlags cds t) := by
  refine ⟨setAnnotFlags_uniInv cds t hinv.1, ?_, ?_, ?_⟩
  · intro r hr h0
    obtain ⟨r0, hr0, rfl⟩ := List.mem_map.mp hr
    exact hinv.2.1 r0 hr0 h0
  · intro r hr hty
    obtain ⟨r0, hr0, rfl⟩ := List.mem_map.mp hr
    exact hinv.2.2.1 r0 hr0 hty
  · intro r hr h0
    obtain ⟨r0, hr0, rfl⟩ := List.mem_map.mp hr
    exact hinv.2.2.2 r0 hr0 h0

theorem ite_cascadeInv (b : Bool) (step : List OrfRow → List OrfRow)
    (t : List OrfRow) (hstep : CascadeInv t → CascadeInv (step t))
    (h : CascadeInv t) : CascadeInv (if b then step t else t) := by
  cases b
  · rw [if_neg (by simp)]
    exact h
  · rw [if_pos rfl]
    exact hstep h

theorem classifyCascade_cascadeInv (F : FamilyInput) (extracds : Bool)
    (cds : List CdsInfo) (aap : List Nat) (t0 t : List OrfRow)
    (hinv : CascadeInv t) (hcz : ∀ c ∈ cds, c.gstop ≠ 0) :
    CascadeInv (classifyCascade F extracds cds aap t0 t) := by
  unfold classifyCascade
  refine newIsoGiso_cascadeInv _ _ _ _ ?_
  refine sameTransStep_cascadeInv _ _ _ ?_ (by decide)
  refine sameTransStep_cascadeInv _ _ _ ?_ (by decide)
  refine sameTransStep_cascadeInv _ _ _ ?_ (by decide)
  refine ite_cascadeInv _ _ _ (fun hh => startOverUnfound_cascadeInv _ _ _ _ _ hh) ?_
  refine sameTransStep_cascadeInv _ _ _ ?_ (by decide)
  refine ite_cascadeInv _ _ _ (fun hh => stopOverUnfound_cascadeInv _ _ _ _ _ hh) ?_
  refine sameTransStep_cascadeInv _ _ _ ?_ (by decide)
  refine ite_cascadeInv _ _ _ (fun hh => internalUnfound_cascadeInv _ _ _ _ _ hh) ?_
  refine sameTransStep_cascadeInv _ _ _ ?_ (by decide)
  refine nciso_cascadeInv _ _ _ _ _ ?_
  refine condRelabel_cascadeInv _ _ _ (fun r s h1 h2 h3 => by simp [h1, h2, h3])
    (fun r h => by simp [h]) (by decide) ?_
  refine sameTransStep_cascadeInv _ _ _ ?_ (by decide)
  refine ite_cascadeInv _ _ _ (fun hh => truncUnfound_cascadeInv _ _ _ _ _ hh) ?_
  refine sameTransStep_cascadeInv _ _ _ ?_ (by decide)
  refine condRelabel_cascadeInv _ _ _ (fun r s h1 h2 h3 => by simp [h1, h2, h3])
    (fun r h => by simp [h]) (by decide) ?_
  refine condRelabel_cascadeInv _ _ _ (fun r s h1 h2 h3 => by simp [h1, h2, h3])
    (fun r h => by simp [h]) (by decide) ?_
  refine xiso2_cascadeInv _ _ ?_
  refine annotatedXiso_cascadeInv _ _ _ _ ?_ hcz
  exact setAnnotFlags_cascadeInv _ _ hinv

/-- C1 (amended): when the family has at least one associated annotation entry
and no eligible CDS carries genomic stop 0, every stopless candidate
(`tstop = 0`) keeps the `nonstop` orftype through the whole classification, in
every returned table.  (The original claim's "regardless of annotation state"
is refuted by `C1_counterexample`: line 410 resets annotation-less families,
stopless rows included, to `new`.) -/
theorem C1_amended_thm (genome : String → Nat → Char) (codons : List String)
    (sources : List (List (String × List AnnotTranscript))) (extracds : Bool)
    (F : FamilyInput) (tbl : List OrfRow) (hWF : WF F)
    (hann : tfamHasAnnots sources F.tfam = true)
    (hcz : ∀ c ∈ dedupCds (cdsInfoFor sources F), c.gstop ≠ 0)
    (hid : identifyTfamOrfs genome codons sources extracds F = some tbl) :
    ∀ r ∈ tbl, r.tstop = 0 → r.orftype = "nonstop" := by
  obtain rfl := identify_some_elim genome codons sources extracds F tbl hid
  have hbase := namedTable_cascadeInv genome codons F hWF
  unfold identifyCore
  rw [hann, if_pos rfl]
  split
  · exact hbase.2.1
  · exact (classifyCascade_cascadeInv F extracds _ _ _ _ hbase hcz).2.1

/-- C1 witness: the annotated stopless family `famC1` — its only candidate
has no stop codon and is labeled `nonstop` in the returned table. -/
theorem C1_witness :
    (((identifyTfamOrfs genomeC1 ["ATG"] srcs1 false famC1).getD []).getD 0
      dummyRow).orftype = "nonstop" :=
  C1_amended_thm genomeC1 ["ATG"] srcs1 false famC1 _
    ⟨by decide, by decide, by decide⟩ (by decide) (by decide) rfl
    _ (by decide) (by decide)

end OrfRater

